import Mathlib

/-!
Shallow embedding of the workbench-core repository (policy engine, context
packer, tool-call assembler, orchestrator tool-execution phase, session
store migrations, artifact store, session message derivation), together
with theorems settling the spec claims.

Python strings are modelled as Lean `String` (or `List Char` where
character-level operations such as truncation and substring replacement
matter); Python dicts with string values as association lists; regular
expression search/substitution is abstracted: `re.search` becomes an
opaque boolean parameter, and redaction patterns are modelled as literal
substrings (a literal is a valid regex, and `re.sub` on a literal is
left-to-right non-overlapping replacement).
-/

namespace Workbench

/-! ## tools/base.py -/

/-- `ToolRisk` from src/workbench/tools/base.py: an IntEnum with values
READ_ONLY = 10, WRITE = 20, DESTRUCTIVE = 30, SHELL = 40. -/
inductive ToolRisk
  | READ_ONLY
  | WRITE
  | DESTRUCTIVE
  | SHELL
deriving DecidableEq

/-- The integer value of each risk level (the IntEnum value). -/
def ToolRisk.toNat : ToolRisk → Nat
  | .READ_ONLY => 10
  | .WRITE => 20
  | .DESTRUCTIVE => 30
  | .SHELL => 40

/-- The `.name` of each risk level, used in decision reason strings. -/
def ToolRisk.nameStr : ToolRisk → String
  | .READ_ONLY => "READ_ONLY"
  | .WRITE => "WRITE"
  | .DESTRUCTIVE => "DESTRUCTIVE"
  | .SHELL => "SHELL"

/-- `PrivacyScope` from src/workbench/tools/base.py. -/
inductive PrivacyScope
  | PUBLIC
  | SENSITIVE
  | SECRET
deriving DecidableEq

/-- The statically known metadata of a `Tool` (tools/base.py) that the
policy engine reads: name, risk level, privacy scope, secret fields. -/
structure ToolMeta where
  name : String
  risk_level : ToolRisk
  privacy_scope : PrivacyScope
  secret_fields : List String
deriving DecidableEq

/-- `PolicyDecision` from src/workbench/types.py. -/
structure PolicyDecision where
  allowed : Bool
  reason : String
  requires_confirmation : Bool
deriving DecidableEq

/-! ## tools/policy.py : PolicyEngine.check -/

/-- The configuration fields of `PolicyEngine` consulted by `check`. -/
structure PolicyConfig where
  max_risk : ToolRisk
  confirm_destructive : Bool
  confirm_shell : Bool
  confirm_write : Bool
  blocked_patterns : List String
deriving DecidableEq

/-- `PolicyEngine.check` (src/workbench/tools/policy.py lines 37-61).

`search pat blob` models `re.search(pat, blob)`; `blob` models
`json.dumps(kwargs, sort_keys=True, default=str)`.  The body mirrors the
source: risk gate first, then the `needs_confirm` elif-cascade over the
IntEnum ordering, then the blocked-pattern scan, then the confirmation
decision. -/
def check (search : String → String → Bool) (cfg : PolicyConfig)
    (tool : ToolMeta) (blob : String) : PolicyDecision :=
  if cfg.max_risk.toNat < tool.risk_level.toNat then
    ⟨false, "risk_too_high:" ++ tool.risk_level.nameStr ++ ">" ++ cfg.max_risk.nameStr, false⟩
  else
    let needs_confirm :=
      if ToolRisk.SHELL.toNat ≤ tool.risk_level.toNat && cfg.confirm_shell then true
      else if ToolRisk.DESTRUCTIVE.toNat ≤ tool.risk_level.toNat && cfg.confirm_destructive then true
      else if ToolRisk.WRITE.toNat ≤ tool.risk_level.toNat && cfg.confirm_write then true
      else false
    if cfg.blocked_patterns.any (fun pat => search pat blob) then
      ⟨false, "blocked_pattern", false⟩
    else if needs_confirm then
      ⟨true, "requires_confirmation", true⟩
    else
      ⟨true, "ok", false⟩

/-! ## llm/types.py : Message, ToolCall -/

/-- `ToolCall` from src/workbench/llm/types.py; `argumentsJson` models the
parsed `arguments` dict through its canonical `json.dumps` serialization
(the context packer only ever consumes `json.dumps(tc.arguments)`). -/
structure ToolCallM where
  id : String
  name : String
  argumentsJson : String
deriving DecidableEq

/-- `Message` from src/workbench/llm/types.py. -/
structure Message where
  role : String
  content : String
  tool_calls : Option (List ToolCallM)
  tool_call_id : Option String
  model : Option String
  provider : Option String
deriving DecidableEq

/-! ## session/context.py : ContextPacker -/

/-- `ContextPacker._message_tokens` (src/workbench/session/context.py
lines 49-64), parameterized by the injected token counter's
`count_text`.  Python's `if msg.tool_call_id:` is falsy for the empty
string, hence the emptiness test. -/
def message_tokens (countText : String → Nat) (m : Message) : Nat :=
  let overhead := 4
  let base := overhead + countText m.content
  let withCalls :=
    match m.tool_calls with
    | none => base
    | some tcs => tcs.foldl (fun acc tc => acc + countText tc.name + countText tc.argumentsJson) base
  match m.tool_call_id with
  | none => withCalls
  | some tid => if tid = "" then withCalls else withCalls + countText tid

/-- `ContextPackReport` from src/workbench/types.py. -/
structure ContextPackReport where
  max_context_tokens : Int
  max_output_tokens : Int
  reserve_tokens : Int
  tool_schema_tokens : Nat
  system_prompt_tokens : Nat
  message_tokens : Nat
  kept_messages : Nat
  dropped_messages : Nat
deriving DecidableEq

/-- `msg.role == "system"` — the privileged-message test in `pack`. -/
def isSystem (m : Message) : Bool := m.role == "system"

/-- Fixed cost of the serialized tool schema: `count_text(json.dumps(tools))
if tools else 0`; `toolsDump` is `json.dumps(tools)` when `tools` is truthy. -/
def toolSchemaTokens (countText : String → Nat) (toolsDump : Option String) : Nat :=
  match toolsDump with
  | none => 0
  | some s => countText s

/-- The clamped conversation budget of `pack` (context.py lines 94-103):
`max(0, max_context - max_output - reserve - tool_schema - system_prompt)`. -/
def packBudget (countText : String → Nat) (toolsDump : Option String)
    (system_prompt : String) (mc mo rz : Int) : Nat :=
  (mc - mo - rz - (toolSchemaTokens countText toolsDump : Int) - (countText system_prompt : Int)).toNat

/-- Combined cost of all system messages (context.py lines 108-113). -/
def systemTokensOf (countText : String → Nat) (messages : List Message) : Nat :=
  ((messages.enum.filter fun p => isSystem p.2).map fun p => message_tokens countText p.2).sum

/-- One iteration of the backwards walk (context.py lines 129-135): add the
message's index while its cost fits the remaining budget.  Mirroring the
source, there is no stop flag — the condition is re-tested for every
older message. -/
def packStep (countText : String → Nat) (remaining_budget : Nat)
    (acc : Nat × List Nat) (p : Nat × Message) : Nat × List Nat :=
  let cost := message_tokens countText p.2
  if acc.1 + cost ≤ remaining_budget then (acc.1 + cost, p.1 :: acc.2) else acc

/-- The remaining budget after subtracting system-message cost
(context.py lines 115-117); Nat subtraction clamps at 0 as the source does. -/
def packRemaining (countText : String → Nat) (messages : List Message)
    (toolsDump : Option String) (system_prompt : String) (mc mo rz : Int) : Nat :=
  packBudget countText toolsDump system_prompt mc mo rz - systemTokensOf countText messages

/-- The accumulator of the backwards walk over non-system messages:
`(running_tokens, kept non-system indices)`. -/
def packFold (countText : String → Nat) (messages : List Message)
    (toolsDump : Option String) (system_prompt : String) (mc mo rz : Int) : Nat × List Nat :=
  ((messages.enum.filter fun p => !(isSystem p.2)).reverse).foldl
    (packStep countText (packRemaining countText messages toolsDump system_prompt mc mo rz)) (0, [])

/-- `kept_indices` (context.py line 126 and the walk): system indices plus
the indices accepted by the walk. -/
def packKeptIdx (countText : String → Nat) (messages : List Message)
    (toolsDump : Option String) (system_prompt : String) (mc mo rz : Int) : List Nat :=
  (messages.enum.filter fun p => isSystem p.2).map Prod.fst ++
    (packFold countText messages toolsDump system_prompt mc mo rz).2

/-- `kept_messages = [messages[i] for i in sorted(kept_indices)]`
(context.py lines 138-140): selecting by index in increasing index order
is filtering the enumerated list by membership. -/
def packKept (countText : String → Nat) (messages : List Message)
    (toolsDump : Option String) (system_prompt : String) (mc mo rz : Int) : List Message :=
  (messages.enum.filter fun p =>
    (packKeptIdx countText messages toolsDump system_prompt mc mo rz).contains p.1).map Prod.snd

/-- `ContextPacker.pack` (src/workbench/session/context.py lines 70-157). -/
def pack (countText : String → Nat) (messages : List Message) (toolsDump : Option String)
    (system_prompt : String) (mc mo rz : Int) : List Message × ContextPackReport :=
  let kept := packKept countText messages toolsDump system_prompt mc mo rz
  (kept,
    { max_context_tokens := mc
      max_output_tokens := mo
      reserve_tokens := rz
      tool_schema_tokens := toolSchemaTokens countText toolsDump
      system_prompt_tokens := countText system_prompt
      message_tokens := systemTokensOf countText messages +
        (packFold countText messages toolsDump system_prompt mc mo rz).1
      kept_messages := kept.length
      dropped_messages := messages.length - kept.length })

/-! ## llm/tool_call_assembler.py : ToolCallAssembler -/

/-- `RawToolDelta` from src/workbench/llm/types.py. -/
structure RawToolDelta where
  call_index : Int
  id : Option String
  name_delta : String
  args_delta : String
  done : Bool
deriving DecidableEq

/-- One buffer of the assembler: `{"id": None, "name": "", "args": ""}`. -/
structure BufEntry where
  id : Option String
  name : String
  args : String
deriving DecidableEq

/-- Assembler state: the `call_index -> buffer` dict (as an insertion-ordered
association list, matching Python dict semantics) and the error list. -/
structure AsmState where
  buf : List (Int × BufEntry)
  errors : List String
deriving DecidableEq

/-- The fresh assembler: empty buffers, no errors. -/
def asmInit : AsmState := ⟨[], []⟩

/-- A completed tool call; `A` is the type of parsed JSON arguments
(the JSON parser is abstracted, see `feed`). -/
structure ToolCallP (A : Type) where
  id : String
  name : String
  arguments : A
deriving DecidableEq

/-- Dict lookup `self._buf.get(idx)`. -/
def lookupBuf (buf : List (Int × BufEntry)) (i : Int) : Option BufEntry :=
  (buf.find? (fun p => p.1 == i)).map Prod.snd

/-- Dict write `self._buf[idx] = b`: in-place update of an existing key,
else append (Python dicts preserve insertion order). -/
def setBuf (buf : List (Int × BufEntry)) (i : Int) (b : BufEntry) : List (Int × BufEntry) :=
  if (lookupBuf buf i).isSome then buf.map (fun p => if p.1 == i then (i, b) else p)
  else buf ++ [(i, b)]

/-- Dict delete `del self._buf[idx]`. -/
def eraseBuf (buf : List (Int × BufEntry)) (i : Int) : List (Int × BufEntry) :=
  buf.filter (fun p => !(p.1 == i))

/-- Python truthiness of an `Optional[str]`: present and non-empty. -/
def optTruthy : Option String → Bool
  | none => false
  | some s => !(s == "")

/-- The recorded parse-failure message (the exception detail from
`json.JSONDecodeError` is elided). -/
def parseErrorMsg (i : Int) : String :=
  "tool_call_json_parse_failed idx=" ++ toString i

/-- `ToolCallAssembler._finalize` (tool_call_assembler.py lines 77-106).
`parse` abstracts `json.loads` (None = parse failure).  Both the
`feed(done=True)` and the `flush` call sites delete the buffer on parse
failure, so the `allow_incomplete` flag has no behavioral effect and is
not modelled. -/
def finalize {A : Type} (parse : String → Option A) (st : AsmState) (i : Int) :
    AsmState × List (ToolCallP A) :=
  match lookupBuf st.buf i with
  | none => (st, [])
  | some b =>
    let raw := if b.args == "" then "\x7b\x7d" else b.args
    match parse raw with
    | none => (⟨eraseBuf st.buf i, st.errors ++ [parseErrorMsg i]⟩, [])
    | some a =>
      let nm := b.name.trim
      let cid :=
        match b.id with
        | some s => if s == "" then "call_" ++ toString i else s
        | none => "call_" ++ toString i
      (⟨eraseBuf st.buf i, st.errors⟩, [⟨cid, nm, a⟩])

/-- `ToolCallAssembler.feed` (tool_call_assembler.py lines 31-54):
`setdefault` the buffer, merge the delta, finalize when `done`. -/
def feed {A : Type} (parse : String → Option A) (st : AsmState) (d : RawToolDelta) :
    AsmState × List (ToolCallP A) :=
  let b0 :=
    match lookupBuf st.buf d.call_index with
    | some b => b
    | none => (⟨none, "", ""⟩ : BufEntry)
  let b1 := if optTruthy d.id && !(optTruthy b0.id) then { b0 with id := d.id } else b0
  let b2 := if !(d.name_delta == "") then { b1 with name := b1.name ++ d.name_delta } else b1
  let b3 := if !(d.args_delta == "") then { b2 with args := b2.args ++ d.args_delta } else b2
  let st1 : AsmState := ⟨setBuf st.buf d.call_index b3, st.errors⟩
  if d.done then finalize parse st1 d.call_index else (st1, [])

/-- A sequence of `feed` calls, accumulating the produced tool calls. -/
def feedMany {A : Type} (parse : String → Option A) (st : AsmState)
    (ds : List RawToolDelta) : AsmState × List (ToolCallP A) :=
  ds.foldl (fun acc d =>
    let r := feed parse acc.1 d
    (r.1, acc.2 ++ r.2)) (st, [])

/-- Insertion into a sorted list (for `sorted(self._buf.keys())`). -/
def insertSorted (x : Int) : List Int → List Int
  | [] => [x]
  | y :: ys => if x ≤ y then x :: y :: ys else y :: insertSorted x ys

/-- `sorted(...)` on a list of keys. -/
def sortInts (l : List Int) : List Int := l.foldr insertSorted []

/-- `ToolCallAssembler.flush` (tool_call_assembler.py lines 56-66):
finalize every remaining buffer in ascending key order. -/
def flush {A : Type} (parse : String → Option A) (st : AsmState) :
    AsmState × List (ToolCallP A) :=
  (sortInts (st.buf.map Prod.fst)).foldl
    (fun acc i =>
      let r := finalize parse acc.1 i
      (r.1, acc.2 ++ r.2)) (st, [])

/-- A stand-in for `json.loads` on the inputs exercised by the concrete
runs below: the empty-object source "\x7b\x7d" parses (to `()`), anything
else fails. -/
def jsonLoadsStub : String → Option Unit :=
  fun s => if s == "\x7b\x7d" then some () else none

/-! ## orchestrator/core.py : execution phase of _execute_tool_call -/

/-- The fields of `ToolResult` (src/workbench/types.py) produced by the
execution phase; artifact payloads are elided (the timeout and exception
results carry none). -/
structure ToolResultM where
  success : Bool
  content : String
  error : Option String
  error_code : Option String
deriving DecidableEq

/-- How the awaited `tool.execute(**arguments)` ends: a result, an
`asyncio.TimeoutError` from `wait_for`, or an uncaught exception. -/
inductive ExecOutcome
  | ok (result : ToolResultM)
  | timeout
  | exception (msg : String)
deriving DecidableEq

/-- The observable side effects of the execution phase, in order. -/
inductive ExecEffect
  | appendResultEvent (r : ToolResultM)
  | auditLog (r : ToolResultM)
deriving DecidableEq

/-- Execution phase of `Orchestrator._execute_tool_call`
(src/workbench/orchestrator/core.py lines 276-351): on timeout the
result event is appended and the method returns; on exception the result
event is appended and then `policy.audit_log` is invoked; on success the
audit log is invoked and then the result event appended.  (Audit-log
failures are swallowed in the source; the effect records the invocation.) -/
def executePhase (tool_timeout : Nat) (outcome : ExecOutcome) : ToolResultM × List ExecEffect :=
  match outcome with
  | .timeout =>
    let r : ToolResultM :=
      ⟨false, "Tool timed out after " ++ toString tool_timeout ++ "s",
        some ("Timeout after " ++ toString tool_timeout ++ "s"), some "timeout"⟩
    (r, [ExecEffect.appendResultEvent r])
  | .exception msg =>
    let r : ToolResultM :=
      ⟨false, "Tool exception: " ++ msg, some msg, some "tool_exception"⟩
    (r, [ExecEffect.appendResultEvent r, ExecEffect.auditLog r])
  | .ok r => (r, [ExecEffect.auditLog r, ExecEffect.appendResultEvent r])

/-- Whether an effect is an `audit_log` invocation. -/
def isAuditEffect : ExecEffect → Bool
  | .auditLog _ => true
  | .appendResultEvent _ => false

/-! ## session/store.py : schema migrations -/

/-- `SCHEMA_VERSION` (src/workbench/session/store.py line 27). -/
def SCHEMA_VERSION : Nat := 1

/-- `MIGRATIONS` (store.py lines 29-52): only version 1 is registered.
Statement text condensed to one line each; the `DEFAULT` clause of
`sessions.metadata` and the `FOREIGN KEY` clause of `events` are elided
as they play no role in version control flow. -/
def MIGRATIONS : Nat → Option (List String) := fun v =>
  if v = 1 then
    some
      ["CREATE TABLE IF NOT EXISTS schema_version (version INTEGER NOT NULL)",
       "CREATE TABLE IF NOT EXISTS sessions (session_id TEXT PRIMARY KEY, created_at TEXT NOT NULL, metadata TEXT NOT NULL)",
       "CREATE TABLE IF NOT EXISTS events (id INTEGER PRIMARY KEY AUTOINCREMENT, session_id TEXT NOT NULL, event_id TEXT NOT NULL UNIQUE, turn_id TEXT NOT NULL, event_type TEXT NOT NULL, timestamp TEXT NOT NULL, payload TEXT NOT NULL)",
       "CREATE INDEX IF NOT EXISTS idx_events_session ON events(session_id)",
       "CREATE INDEX IF NOT EXISTS idx_events_turn ON events(turn_id)"]
  else none

/-- The migration loop body: apply `MIGRATIONS[version]` for each version
in order, failing with `RuntimeError("Missing migration ...")` when a
version has no registered statements.  Returns the applied
`(version, statements)` pairs. -/
def applyMigrations : List Nat → Except String (List (Nat × List String))
  | [] => Except.ok []
  | v :: rest =>
    match MIGRATIONS v with
    | none => Except.error ("Missing migration for schema version " ++ toString v)
    | some stmts =>
      match applyMigrations rest with
      | Except.ok xs => Except.ok ((v, stmts) :: xs)
      | Except.error e => Except.error e

/-- `SessionStore._run_migrations` (store.py lines 132-151): if the
persisted version is already `>= SCHEMA_VERSION` it returns immediately
— including for versions *greater* than the code's — otherwise it applies
`range(current+1, target+1)`. -/
def run_migrations (current : Nat) : Except String (List (Nat × List String)) :=
  if SCHEMA_VERSION ≤ current then Except.ok []
  else applyMigrations (List.range' (current + 1) (SCHEMA_VERSION - current))

/-! ## tools/policy.py : redaction and audit_log privacy fields -/

/-- Boolean prefix test on character lists. -/
def leadsWith : List Char → List Char → Bool
  | [], _ => true
  | _ :: _, [] => false
  | p :: ps, c :: cs => p == c && leadsWith ps cs

/-- Left-to-right non-overlapping replacement of a literal pattern, with
an explicit fuel argument (fuel ≥ input length suffices).  This models
`re.sub(pat, repl, s)` for a non-empty literal pattern `pat`; an empty
pattern is treated as a no-op. -/
def replaceAllFuel (pat repl : List Char) : Nat → List Char → List Char
  | _, [] => []
  | 0, l => l
  | fuel + 1, c :: rest =>
    if !pat.isEmpty && leadsWith pat (c :: rest) then
      repl ++ replaceAllFuel pat repl fuel (rest.drop (pat.length - 1))
    else c :: replaceAllFuel pat repl fuel rest

/-- `rx.sub("***REDACTED***", s)` for a literal pattern. -/
def replaceAll (pat repl s : List Char) : List Char :=
  replaceAllFuel pat repl s.length s

/-- `PolicyEngine._apply_pattern_redaction` (policy.py lines 76-80):
apply each redaction pattern in order. -/
def redact (pats : List (List Char)) (s : List Char) : List Char :=
  pats.foldl (fun acc p => replaceAll p ("***REDACTED***".toList) acc) s

/-- `PolicyEngine.redact_args_for_audit` (policy.py lines 63-71) for a
dict of string values with unique keys: secret fields are replaced by
the literal, then pattern redaction is applied to every value
(including the just-inserted literals, as the source does). -/
def redact_args_for_audit (pats : List (List Char)) (secret_fields : List String)
    (kwargs : List (String × List Char)) : List (String × List Char) :=
  kwargs.map (fun kv =>
    (kv.1, redact pats (if secret_fields.contains kv.1 then "***REDACTED***".toList else kv.2)))

/-- The `args` field of an audit record: either a redacted dict or the
literal `***REDACTED***`. -/
inductive AuditArgsField
  | dict (kv : List (String × List Char))
  | redactedLiteral
deriving DecidableEq

/-- The privacy-scope-dependent fields of one audit record. -/
structure AuditPrivacyFields where
  args : AuditArgsField
  output : List Char
deriving DecidableEq

/-- The privacy-scope dispatch of `PolicyEngine.audit_log` (policy.py
lines 110-118): `content` is `result.content`; Python's `s[:n]` is
`List.take n`.  The source truncates first and redacts the truncation. -/
def audit_privacy_fields (pats : List (List Char)) (tool : ToolMeta)
    (kwargs : List (String × List Char)) (content : List Char) : AuditPrivacyFields :=
  match tool.privacy_scope with
  | .PUBLIC =>
    ⟨.dict (redact_args_for_audit pats tool.secret_fields kwargs),
     redact pats (content.take 2000)⟩
  | .SENSITIVE => ⟨.redactedLiteral, redact pats (content.take 500)⟩
  | .SECRET => ⟨.redactedLiteral, "***REDACTED***".toList⟩

/-- Whether `pat` occurs as a contiguous substring. -/
def hasSub (pat : List Char) : List Char → Bool
  | [] => pat.isEmpty
  | c :: rest => leadsWith pat (c :: rest) || hasSub pat rest

/-! ## session/session.py : message derivation -/

/-- One persisted `SessionEvent`, restricted to the payload fields that
`Session.get_messages` reads.  `metaEvent` stands for `confirmation`,
`model_switch` and `protocol_error`, which do not map to messages. -/
inductive EventK
  | userMessage (content : String)
  | assistantMessage (content : String) (model : Option String)
  | toolCallRequest (tool_call_id : String) (tool_name : String) (argumentsJson : String)
  | toolCallResult (tool_call_id : Option String) (content : String) (error : Option String)
  | metaEvent
deriving DecidableEq

/-- Whether an event is an `assistant_message` event. -/
def isAssistantEvent : EventK → Bool
  | .assistantMessage _ _ => true
  | _ => false

/-- The backwards walk of `Session._flush_pending` (session.py lines
198-213): modify the most recent assistant message (the matching break
in the source is the no-assistant-in-rest test here) and leave the list
unchanged when no assistant message exists. -/
def attachToLastAssistant (pending : List ToolCallM) : List Message → List Message
  | [] => []
  | m :: rest =>
    if rest.any (fun x => x.role == "assistant") then
      m :: attachToLastAssistant pending rest
    else if m.role == "assistant" then
      { m with tool_calls := some (m.tool_calls.getD [] ++ pending) } :: rest
    else
      m :: rest

/-- `Session._flush_pending`: no-op on an empty pending list, else attach
to the last assistant message (and the caller clears the buffer). -/
def flushPending (messages : List Message) (pending : List ToolCallM) : List Message :=
  if pending.isEmpty then messages else attachToLastAssistant pending messages

/-- One event step of `Session.get_messages` (session.py lines 139-191):
the accumulator is `(messages, pending_tool_calls)`. -/
def deriveStep (acc : List Message × List ToolCallM) (e : EventK) :
    List Message × List ToolCallM :=
  match e with
  | .userMessage c =>
    (flushPending acc.1 acc.2 ++ [⟨"user", c, none, none, none, none⟩], [])
  | .assistantMessage c mdl =>
    (flushPending acc.1 acc.2 ++ [⟨"assistant", c, none, none, mdl, none⟩], [])
  | .toolCallRequest tid tname argsJ => (acc.1, acc.2 ++ [⟨tid, tname, argsJ⟩])
  | .toolCallResult tid c err =>
    let content :=
      match err with
      | some e => if e = "" then c else "[Error] " ++ e ++ ": " ++ c
      | none => c
    (flushPending acc.1 acc.2 ++ [⟨"tool", content, none, tid, none, none⟩], [])
  | .metaEvent => acc

/-- `Session.get_messages` (session.py lines 114-196): walk the events,
then a final flush. -/
def getMessages (events : List EventK) : List Message :=
  let r := events.foldl deriveStep ([], [])
  flushPending r.1 r.2

/-! ## session/artifacts.py : ArtifactStore

POSIX paths are modelled at the segment level: an absolute path is a
`List (List Char)` of segments; the filesystem is a partial map from
resolved absolute paths to byte contents (symlinks are not modelled, so
`Path.resolve()` is `..`/`.` normalization).  Strings handed to pathlib
are parsed with `splitSegs`; `str(path)` is `renderPath`. -/

/-- Split a character list at every '/'. -/
def splitOnSlash : List Char → List (List Char)
  | [] => [[]]
  | c :: rest =>
    match splitOnSlash rest with
    | [] => [[]]
    | seg :: segs => if c == '/' then [] :: seg :: segs else (c :: seg) :: segs

/-- The nonempty segments of a POSIX path string (pathlib drops empty
components arising from repeated or trailing slashes). -/
def splitSegs (s : List Char) : List (List Char) :=
  (splitOnSlash s).filter (fun seg => !seg.isEmpty)

/-- A well-formed stored segment: nonempty and slash-free. -/
def isCleanSeg (seg : List Char) : Bool := !seg.isEmpty && !seg.contains '/'

/-- pathlib `/` on an absolute path and a raw operand string: an
absolute operand resets the path, otherwise the segments are appended. -/
def joinPath (base : List (List Char)) (s : List Char) : List (List Char) :=
  if s.head? = some '/' then splitSegs s else base ++ splitSegs s

/-- `Path.resolve()` without symlinks: drop `.`, pop on `..` (the POSIX
root absorbs `..`). -/
def resolveSegs (p : List (List Char)) : List (List Char) :=
  p.foldl (fun acc seg =>
    if seg = ['.'] then acc
    else if seg = ['.', '.'] then acc.dropLast
    else acc ++ [seg]) []

/-- `str(path)` of an absolute path: "/" for the root, else
slash-prefixed segments. -/
def renderPath : List (List Char) → List Char
  | [] => ['/']
  | [seg] => '/' :: seg
  | seg :: rest => '/' :: seg ++ renderPath rest

/-- The comparison of `ArtifactStore._validate_under_base` (artifacts.py
lines 50-62) on already-resolved paths:
`str(resolved).startswith(str(base) + os.sep) or resolved == base`. -/
def validateOk (base p : List (List Char)) : Bool :=
  leadsWith (renderPath base ++ ['/']) (renderPath p) || base == p

/-- `_validate_under_base` itself: resolve the path, then compare (the
base is stored resolved by `__init__`). -/
def validate_under_base (base p : List (List Char)) : Bool :=
  validateOk base (resolveSegs p)

/-- `ArtifactStore._artifact_path` (artifacts.py lines 46-48):
`base / sha256[:2] / sha256` under pathlib join semantics. -/
def artifactPathRaw (base : List (List Char)) (sha : List Char) : List (List Char) :=
  joinPath (joinPath base (sha.take 2)) sha

/-- `Path(s).resolve()` for a raw string `s`: a relative string resolves
against the current working directory. -/
def resolveStr (cwd : List (List Char)) (s : List Char) : List (List Char) :=
  if s.head? = some '/' then resolveSegs (splitSegs s)
  else resolveSegs (cwd ++ splitSegs s)

/-- The filesystem: resolved absolute path → stored bytes. -/
def FS : Type := List (List Char) → Option (List Nat)

/-- The error kinds raised by the store. -/
inductive ArtifactErr
  | pathTraversal
  | notFound
deriving DecidableEq

/-- `ArtifactStore.exists` (artifacts.py lines 129-133): canonical path,
validate, test presence. -/
def existsOp (base : List (List Char)) (fs : FS) (sha : List Char) :
    Except ArtifactErr Bool :=
  let path := artifactPathRaw base sha
  if validate_under_base base path then Except.ok ((fs (resolveSegs path)).isSome)
  else Except.error ArtifactErr.pathTraversal

/-- `ArtifactStore.delete` (artifacts.py lines 135-156): canonical path,
validate, unlink if present (the empty-subdirectory cleanup concerns
directories only and is elided from the file map). -/
def deleteOp (base : List (List Char)) (fs : FS) (sha : List Char) :
    Except ArtifactErr (Bool × FS) :=
  let path := artifactPathRaw base sha
  if validate_under_base base path then
    let rp := resolveSegs path
    match fs rp with
    | none => Except.ok (false, fs)
    | some _ => Except.ok (true, fun q => if q = rp then none else fs q)
  else Except.error ArtifactErr.pathTraversal

/-- `ArtifactStore.get` (artifacts.py lines 111-127): resolve the
supplied `stored_path` string, validate, read. -/
def getOp (base : List (List Char)) (fs : FS) (cwd : List (List Char))
    (stored_path : List Char) : Except ArtifactErr (List Nat) :=
  let p := resolveStr cwd stored_path
  if validateOk base (resolveSegs p) then
    match fs p with
    | none => Except.error ArtifactErr.notFound
    | some c => Except.ok c
  else Except.error ArtifactErr.pathTraversal

/-- `ArtifactPayload` from src/workbench/types.py (content as bytes). -/
structure ArtifactPayloadM where
  content : List Nat
  original_name : String
  media_type : String
  description : String
deriving DecidableEq

/-- `ArtifactRef` from src/workbench/types.py; `stored_path` is the
`str(file_path)` recorded by `store`. -/
structure ArtifactRefM where
  sha256 : List Char
  stored_path : List Char
  original_name : String
  media_type : String
  description : String
  size_bytes : Nat
deriving DecidableEq

/-- `ArtifactStore.store` (artifacts.py lines 68-109), parameterized by
the hash (`hashlib.sha256(...).hexdigest()`): validate subdir and file
path, write the content only if the file does not already exist (the
atomic temp-file dance collapses to the final map update), and return
the reference.  `original_name` is never used as a path component. -/
def storeOp (hash : List Nat → List Char) (base : List (List Char)) (fs : FS)
    (payload : ArtifactPayloadM) : Except ArtifactErr (ArtifactRefM × FS) :=
  let sha := hash payload.content
  let subdir := joinPath base (sha.take 2)
  if validate_under_base base subdir then
    let file_path := joinPath subdir sha
    if validate_under_base base file_path then
      let rp := resolveSegs file_path
      let fs' : FS :=
        if (fs rp).isSome then fs
        else fun q => if q = rp then some payload.content else fs q
      Except.ok
        (⟨sha, renderPath file_path, payload.original_name, payload.media_type,
          payload.description, payload.content.length⟩, fs')
    else Except.error ArtifactErr.pathTraversal
  else Except.error ArtifactErr.pathTraversal

/-- The specification-side notion of C7: the path is the base directory
or a descendant of it. -/
def underBase (base p : List (List Char)) : Prop := ∃ t, p = base ++ t

/-- Hex-digest shape: nonempty, all characters lowercase hex. -/
def hexy (s : List Char) : Bool :=
  !s.isEmpty && s.all (fun c => ("0123456789abcdef".toList).contains c)

/-- `renderPath base ++ "/"` in recursion-friendly form (agrees with it
for nonempty `base`): each segment slash-prefixed, then a trailing
slash. -/
def patP : List (List Char) → List Char
  | [] => ['/']
  | seg :: rest => '/' :: seg ++ patP rest

/-- `renderPath p` in recursion-friendly form (agrees for nonempty `p`). -/
def tgtP : List (List Char) → List Char
  | [] => []
  | seg :: rest => '/' :: seg ++ tgtP rest

end Workbench

/-! ## Claim C1 -/

/-- C1 counterexample: with `max_risk = SHELL`, `confirm_shell = false`,
`confirm_destructive = true`, no blocked patterns, a SHELL-risk tool is
within `max_risk` and matches no blocking pattern, yet `check` returns
`requires_confirmation = true` while the claimed formula
(risk = SHELL ∧ confirm_shell) ∨ (risk = DESTRUCTIVE ∧ confirm_destructive)
∨ (risk = WRITE ∧ confirm_write) is false: the elif-cascade in the source
compares with `>=`, so a SHELL tool falls through to the DESTRUCTIVE rule. -/
theorem c1_counterexample :
    let cfg : Workbench.PolicyConfig :=
      ⟨Workbench.ToolRisk.SHELL, true, false, false, []⟩
    let tool : Workbench.ToolMeta :=
      ⟨"sh", Workbench.ToolRisk.SHELL, Workbench.PrivacyScope.PUBLIC, []⟩
    tool.risk_level.toNat ≤ cfg.max_risk.toNat ∧
    (Workbench.check (fun _ _ => false) cfg tool "\x7b\x7d").requires_confirmation = true ∧
    ¬ ((tool.risk_level = Workbench.ToolRisk.SHELL ∧ cfg.confirm_shell = true) ∨
       (tool.risk_level = Workbench.ToolRisk.DESTRUCTIVE ∧ cfg.confirm_destructive = true) ∨
       (tool.risk_level = Workbench.ToolRisk.WRITE ∧ cfg.confirm_write = true)) := by
  refine ⟨by decide, by decide, by decide⟩

/-- C1 amended: for every tool whose risk_level does not exceed max_risk
and whose arguments match no blocking pattern, `check` returns a decision
with `requires_confirmation = true` if and only if (risk ≥ SHELL ∧
confirm_shell) ∨ (risk ≥ DESTRUCTIVE ∧ confirm_destructive) ∨ (risk ≥
WRITE ∧ confirm_write), the highest applicable rule being tested first;
the reason string of a confirmation-requiring decision is the constant
"requires_confirmation". -/
theorem c1_amended (search : String → String → Bool) (cfg : Workbench.PolicyConfig)
    (tool : Workbench.ToolMeta) (blob : String)
    (hrisk : tool.risk_level.toNat ≤ cfg.max_risk.toNat)
    (hblock : ∀ pat ∈ cfg.blocked_patterns, search pat blob = false) :
    ((Workbench.check search cfg tool blob).requires_confirmation = true ↔
      ((Workbench.ToolRisk.SHELL.toNat ≤ tool.risk_level.toNat ∧ cfg.confirm_shell = true) ∨
       (Workbench.ToolRisk.DESTRUCTIVE.toNat ≤ tool.risk_level.toNat ∧ cfg.confirm_destructive = true) ∨
       (Workbench.ToolRisk.WRITE.toNat ≤ tool.risk_level.toNat ∧ cfg.confirm_write = true))) ∧
    ((Workbench.check search cfg tool blob).requires_confirmation = true →
      (Workbench.check search cfg tool blob).reason = "requires_confirmation") := by
  have hno : cfg.blocked_patterns.any (fun pat => search pat blob) = false := by
    rw [List.any_eq_false]
    intro pat hpat
    simp [hblock pat hpat]
  have hlt : ¬ cfg.max_risk.toNat < tool.risk_level.toNat := not_lt.mpr hrisk
  unfold Workbench.check
  rw [if_neg hlt]
  simp only [hno]
  cases tool.risk_level <;> cases hs : cfg.confirm_shell <;>
    cases hd : cfg.confirm_destructive <;> cases hw : cfg.confirm_write <;>
    simp [Workbench.ToolRisk.toNat]

/-- Witness for `c1_amended` at a concrete input: a WRITE-risk tool with
`confirm_write = true` requires confirmation. -/
theorem c1_amended_witness :
    ((Workbench.check (fun _ _ => false)
        ⟨Workbench.ToolRisk.WRITE, false, false, true, []⟩
        ⟨"w", Workbench.ToolRisk.WRITE, Workbench.PrivacyScope.PUBLIC, []⟩
        "\x7b\x7d").requires_confirmation = true ↔
      ((Workbench.ToolRisk.SHELL.toNat ≤ Workbench.ToolRisk.WRITE.toNat ∧ false = true) ∨
       (Workbench.ToolRisk.DESTRUCTIVE.toNat ≤ Workbench.ToolRisk.WRITE.toNat ∧ false = true) ∨
       (Workbench.ToolRisk.WRITE.toNat ≤ Workbench.ToolRisk.WRITE.toNat ∧ true = true))) ∧
    ((Workbench.check (fun _ _ => false)
        ⟨Workbench.ToolRisk.WRITE, false, false, true, []⟩
        ⟨"w", Workbench.ToolRisk.WRITE, Workbench.PrivacyScope.PUBLIC, []⟩
        "\x7b\x7d").requires_confirmation = true →
      (Workbench.check (fun _ _ => false)
        ⟨Workbench.ToolRisk.WRITE, false, false, true, []⟩
        ⟨"w", Workbench.ToolRisk.WRITE, Workbench.PrivacyScope.PUBLIC, []⟩
        "\x7b\x7d").reason = "requires_confirmation") :=
  c1_amended (fun _ _ => false)
    ⟨Workbench.ToolRisk.WRITE, false, false, true, []⟩
    ⟨"w", Workbench.ToolRisk.WRITE, Workbench.PrivacyScope.PUBLIC, []⟩
    "\x7b\x7d" (by decide) (by intro pat hpat; rfl)

/-! ## Claims C3 and C5 : ContextPacker -/

/-- Splitting a filtered sum over a disjunction of disjoint predicates. -/
theorem sum_filter_or (f : Nat × Workbench.Message → Nat)
    (a b : Nat × Workbench.Message → Bool) :
    ∀ l : List (Nat × Workbench.Message),
      (∀ p ∈ l, ¬(a p = true ∧ b p = true)) →
      ((l.filter fun p => a p || b p).map f).sum
        = ((l.filter a).map f).sum + ((l.filter b).map f).sum := by
  intro l
  induction l with
  | nil => intro _; simp
  | cons p l ih =>
    intro h
    have hrest := ih (fun q hq => h q (by simp [hq]))
    have hp := h p (by simp)
    by_cases ha : a p = true
    · have hb : b p = false := by
        cases hbv : b p
        · rfl
        · exact absurd ⟨ha, hbv⟩ hp
      simp only [List.filter_cons, ha, hb, Bool.true_or, if_true, if_false,
        Bool.false_eq_true, List.map_cons, List.sum_cons, hrest]
      omega
    · have ha' : a p = false := by
        cases hav : a p
        · rfl
        · exact absurd hav ha
      by_cases hb : b p = true
      · simp only [List.filter_cons, ha', hb, Bool.false_or, if_true, if_false,
          Bool.false_eq_true, List.map_cons, List.sum_cons, hrest]
        omega
      · have hb' : b p = false := by
          cases hbv : b p
          · rfl
          · exact absurd hbv hb
        simp only [List.filter_cons, ha', hb', Bool.false_or, if_false,
          Bool.false_eq_true, hrest]

/-- Filtering an index/message list by membership of the index in the
index projection of a sublist recovers exactly that sublist, provided
the indices are distinct. -/
theorem filter_fst_mem_eq :
    ∀ {l c : List (Nat × Workbench.Message)}, List.Sublist c l →
      (l.map Prod.fst).Nodup →
      l.filter (fun p => (c.map Prod.fst).contains p.1) = c := by
  intro l c hs
  induction hs with
  | slnil => intro _; rfl
  | @cons l₁ l₂ a hsub ih =>
    intro hn
    have hn' : (l₂.map Prod.fst).Nodup := by
      rw [List.map_cons, List.nodup_cons] at hn
      exact hn.2
    have hnot : a.1 ∉ l₂.map Prod.fst := by
      rw [List.map_cons, List.nodup_cons] at hn
      exact hn.1
    have hsubfst : List.Sublist (l₁.map Prod.fst) (l₂.map Prod.fst) := hsub.map Prod.fst
    have hamem : a.1 ∉ l₁.map Prod.fst := fun hmem => hnot (hsubfst.subset hmem)
    have hpa : ((l₁.map Prod.fst).contains a.1) = false := by
      simpa using hamem
    rw [List.filter_cons, hpa]
    simp only [Bool.false_eq_true, if_false]
    exact ih hn'
  | @cons₂ l₁ l₂ a hsub ih =>
    intro hn
    have hn' : (l₂.map Prod.fst).Nodup := by
      rw [List.map_cons, List.nodup_cons] at hn
      exact hn.2
    have hnot : a.1 ∉ l₂.map Prod.fst := by
      rw [List.map_cons, List.nodup_cons] at hn
      exact hn.1
    have hpa : (((a :: l₁).map Prod.fst).contains a.1) = true := by simp
    rw [List.filter_cons, hpa]
    simp only [if_true]
    have hcongr : ∀ p ∈ l₂, (((a :: l₁).map Prod.fst).contains p.1)
        = ((l₁.map Prod.fst).contains p.1) := by
      intro p hp
      have hne : p.1 ≠ a.1 := by
        intro he
        exact hnot (he ▸ List.mem_map_of_mem Prod.fst hp)
      simp [hne]
    rw [List.filter_congr hcongr]
    exact congrArg (a :: ·) (ih hn')

/-- Specification of the backwards walk: the result is the accumulator
extended by a chosen sublist whose costs sum to the running total, which
never exceeds the remaining budget. -/
theorem packFold_spec (countText : String → Nat) (rb : Nat) :
    ∀ (l : List (Nat × Workbench.Message)) (acc : Nat × List Nat), acc.1 ≤ rb →
    ∃ chosen : List (Nat × Workbench.Message),
      List.Sublist chosen l ∧
      (l.foldl (Workbench.packStep countText rb) acc).1
        = acc.1 + (chosen.map fun p => Workbench.message_tokens countText p.2).sum ∧
      (l.foldl (Workbench.packStep countText rb) acc).2
        = (chosen.map Prod.fst).reverse ++ acc.2 ∧
      (l.foldl (Workbench.packStep countText rb) acc).1 ≤ rb := by
  intro l
  induction l with
  | nil =>
    intro acc h
    exact ⟨[], List.nil_sublist _, by simp, by simp, h⟩
  | cons p l ih =>
    intro acc h
    by_cases hc : acc.1 + Workbench.message_tokens countText p.2 ≤ rb
    · obtain ⟨ch, hsub, h1, h2, h3⟩ :=
        ih (acc.1 + Workbench.message_tokens countText p.2, p.1 :: acc.2) hc
      refine ⟨p :: ch, List.Sublist.cons₂ p hsub, ?_, ?_, ?_⟩
      · rw [List.foldl_cons]
        have hstep : Workbench.packStep countText rb acc p
            = (acc.1 + Workbench.message_tokens countText p.2, p.1 :: acc.2) := by
          simp [Workbench.packStep, hc]
        rw [hstep, h1]
        simp
        omega
      · rw [List.foldl_cons]
        have hstep : Workbench.packStep countText rb acc p
            = (acc.1 + Workbench.message_tokens countText p.2, p.1 :: acc.2) := by
          simp [Workbench.packStep, hc]
        rw [hstep, h2]
        simp
      · rw [List.foldl_cons]
        have hstep : Workbench.packStep countText rb acc p
            = (acc.1 + Workbench.message_tokens countText p.2, p.1 :: acc.2) := by
          simp [Workbench.packStep, hc]
        rw [hstep]
        exact h3
    · obtain ⟨ch, hsub, h1, h2, h3⟩ := ih acc h
      have hstep : Workbench.packStep countText rb acc p = acc := by
        simp [Workbench.packStep, hc]
      exact ⟨ch, List.Sublist.cons p hsub, by rw [List.foldl_cons, hstep]; exact h1,
        by rw [List.foldl_cons, hstep]; exact h2, by rw [List.foldl_cons, hstep]; exact h3⟩

/-- Membership in an appended index list, as a Bool equation. -/
theorem contains_append_nat (l₁ l₂ : List Nat) (x : Nat) :
    (l₁ ++ l₂).contains x = (l₁.contains x || l₂.contains x) := by
  simp [List.contains_eq_any_beq]

/-- Accounting for `pack`: the total cost of the kept messages is the
system-message cost plus the running total of the backwards walk, and
that running total never exceeds the remaining budget. -/
theorem packKept_props (countText : String → Nat) (messages : List Workbench.Message)
    (toolsDump : Option String) (sp : String) (mc mo rz : Int) :
    ((Workbench.packKept countText messages toolsDump sp mc mo rz).map
        (Workbench.message_tokens countText)).sum
      = Workbench.systemTokensOf countText messages
        + (Workbench.packFold countText messages toolsDump sp mc mo rz).1
    ∧ (Workbench.packFold countText messages toolsDump sp mc mo rz).1
        ≤ Workbench.packRemaining countText messages toolsDump sp mc mo rz := by
  have hnodup : (messages.enum.map Prod.fst).Nodup := List.nodup_enum_map_fst messages
  have hsysEq : messages.enum.filter
      (fun p => (((messages.enum.filter fun q => Workbench.isSystem q.2).map Prod.fst).contains p.1))
      = messages.enum.filter fun q => Workbench.isSystem q.2 :=
    filter_fst_mem_eq (List.filter_sublist _) hnodup
  obtain ⟨ch, hsub, h1, h2, h3⟩ :=
    packFold_spec countText (Workbench.packRemaining countText messages toolsDump sp mc mo rz)
      ((messages.enum.filter fun p => !(Workbench.isSystem p.2)).reverse) (0, []) (Nat.zero_le _)
  have hchrev : List.Sublist ch.reverse (messages.enum.filter fun q => !(Workbench.isSystem q.2)) := by
    simpa using hsub.reverse
  have hchidx : List.Sublist ch.reverse messages.enum := hchrev.trans (List.filter_sublist _)
  have hchEq : messages.enum.filter (fun p => ((ch.reverse.map Prod.fst).contains p.1)) = ch.reverse :=
    filter_fst_mem_eq hchidx hnodup
  have hfold1 : (Workbench.packFold countText messages toolsDump sp mc mo rz).1
      = (ch.map fun p => Workbench.message_tokens countText p.2).sum := by
    show (((messages.enum.filter fun p => !(Workbench.isSystem p.2)).reverse).foldl
      (Workbench.packStep countText
        (Workbench.packRemaining countText messages toolsDump sp mc mo rz)) (0, [])).1
      = _
    rw [h1]
    simp
  have hfold2 : (Workbench.packFold countText messages toolsDump sp mc mo rz).2
      = ch.reverse.map Prod.fst := by
    show (((messages.enum.filter fun p => !(Workbench.isSystem p.2)).reverse).foldl
      (Workbench.packStep countText
        (Workbench.packRemaining countText messages toolsDump sp mc mo rz)) (0, [])).2
      = _
    rw [h2, List.map_reverse]
    simp
  constructor
  · unfold Workbench.packKept Workbench.packKeptIdx
    rw [List.map_map]
    have hmapeq : (Workbench.message_tokens countText ∘ Prod.snd)
        = (fun p : Nat × Workbench.Message => Workbench.message_tokens countText p.2) := rfl
    rw [hmapeq]
    have hpred : ∀ p ∈ messages.enum,
        ((((messages.enum.filter fun q => Workbench.isSystem q.2).map Prod.fst)
            ++ (Workbench.packFold countText messages toolsDump sp mc mo rz).2).contains p.1)
        = ((((messages.enum.filter fun q => Workbench.isSystem q.2).map Prod.fst).contains p.1)
            || ((ch.reverse.map Prod.fst).contains p.1)) := by
      intro p _
      rw [contains_append_nat, hfold2]
    rw [List.filter_congr hpred]
    have hdisj : ∀ p ∈ messages.enum,
        ¬((((messages.enum.filter fun q => Workbench.isSystem q.2).map Prod.fst).contains p.1) = true
          ∧ ((ch.reverse.map Prod.fst).contains p.1) = true) := by
      rintro p hp ⟨hA, hB⟩
      have hpsys : p ∈ messages.enum.filter (fun q => Workbench.isSystem q.2) := by
        rw [← hsysEq]
        exact List.mem_filter.mpr ⟨hp, hA⟩
      have h1s : Workbench.isSystem p.2 = true := (List.mem_filter.mp hpsys).2
      have hpch : p ∈ ch.reverse := by
        rw [← hchEq]
        exact List.mem_filter.mpr ⟨hp, hB⟩
      have h2s : (!(Workbench.isSystem p.2)) = true :=
        (List.mem_filter.mp (hchrev.subset hpch)).2
      rw [h1s] at h2s
      exact absurd h2s (by decide)
    rw [sum_filter_or _ _ _ messages.enum hdisj, hsysEq, hchEq, hfold1]
    have hrev : (ch.reverse.map fun p => Workbench.message_tokens countText p.2).sum
        = (ch.map fun p => Workbench.message_tokens countText p.2).sum := by
      rw [List.map_reverse, List.sum_reverse]
    rw [hrev]
    rfl
  · have : (Workbench.packFold countText messages toolsDump sp mc mo rz).1
        = (((messages.enum.filter fun p => !(Workbench.isSystem p.2)).reverse).foldl
          (Workbench.packStep countText
            (Workbench.packRemaining countText messages toolsDump sp mc mo rz)) (0, [])).1 := rfl
    rw [this]
    exact h3

/-- C3 (code bug): the walk does not stop at the first overflow.  With
`count_text = len`, remaining budget 10 and non-system message costs
4 (oldest), 20, 5 (newest), the newest message (cost 5) is kept, the
middle one (cost 20) overflows and is dropped, yet the oldest (cost 4)
is then kept because the source re-tests the budget condition instead of
stopping — so the kept ordinary messages are not a contiguous suffix,
contradicting the claim, the module docstring ("When the budget is
exhausted, drop all older non-system messages.") and the inline comment
("Once we exceed the budget we stop adding older messages"). -/
theorem c3_code_bug :
    (Workbench.pack String.length
      [⟨"user", "", none, none, none, none⟩,
       ⟨"user", "aaaaaaaaaaaaaaaa", none, none, none, none⟩,
       ⟨"user", "x", none, none, none, none⟩]
      none "" 10 0 0).1
      = [⟨"user", "", none, none, none, none⟩, ⟨"user", "x", none, none, none, none⟩]
    ∧ (⟨"user", "aaaaaaaaaaaaaaaa", none, none, none, none⟩ : Workbench.Message)
        ∉ (Workbench.pack String.length
            [⟨"user", "", none, none, none, none⟩,
             ⟨"user", "aaaaaaaaaaaaaaaa", none, none, none, none⟩,
             ⟨"user", "x", none, none, none, none⟩]
            none "" 10 0 0).1 := by
  constructor
  · rfl
  · decide

/-- C5 counterexample: with computed budget B = 0 and a single system
message of cost 4, the system message is kept regardless, so the total
cost of the kept messages (4) exceeds B — the two halves of the claim
(sum ≤ B, and system messages kept even when their cost alone exceeds B)
cannot both hold. -/
theorem c5_counterexample :
    Workbench.packBudget String.length none "" 0 0 0 = 0
    ∧ (Workbench.pack String.length [⟨"system", "", none, none, none, none⟩] none "" 0 0 0).1
        = [⟨"system", "", none, none, none, none⟩]
    ∧ ¬ (((Workbench.pack String.length [⟨"system", "", none, none, none, none⟩]
            none "" 0 0 0).1.map (Workbench.message_tokens String.length)).sum
          ≤ Workbench.packBudget String.length none "" 0 0 0) := by
  refine ⟨rfl, rfl, by decide⟩

/-- C5 amended: for every conversation packed with computed budget B, the
total cost of the kept messages is at most max(B, combined system cost)
— hence at most B whenever the combined cost of the system messages fits
in B — and every system message always appears in the kept output. -/
theorem c5_amended (countText : String → Nat) (messages : List Workbench.Message)
    (toolsDump : Option String) (sp : String) (mc mo rz : Int) :
    (((Workbench.pack countText messages toolsDump sp mc mo rz).1.map
        (Workbench.message_tokens countText)).sum
      ≤ max (Workbench.packBudget countText toolsDump sp mc mo rz)
          (Workbench.systemTokensOf countText messages))
    ∧ (Workbench.systemTokensOf countText messages
          ≤ Workbench.packBudget countText toolsDump sp mc mo rz →
        ((Workbench.pack countText messages toolsDump sp mc mo rz).1.map
            (Workbench.message_tokens countText)).sum
          ≤ Workbench.packBudget countText toolsDump sp mc mo rz)
    ∧ (∀ m ∈ messages, Workbench.isSystem m = true →
        m ∈ (Workbench.pack countText messages toolsDump sp mc mo rz).1) := by
  obtain ⟨hsum, hle⟩ := packKept_props countText messages toolsDump sp mc mo rz
  have hkept : (Workbench.pack countText messages toolsDump sp mc mo rz).1
      = Workbench.packKept countText messages toolsDump sp mc mo rz := rfl
  have hrem : Workbench.packRemaining countText messages toolsDump sp mc mo rz
      = Workbench.packBudget countText toolsDump sp mc mo rz
        - Workbench.systemTokensOf countText messages := rfl
  rw [hrem] at hle
  refine ⟨?_, ?_, ?_⟩
  · rw [hkept, hsum]
    rcases Nat.le_total (Workbench.systemTokensOf countText messages)
        (Workbench.packBudget countText toolsDump sp mc mo rz) with h | h
    · exact le_trans (by omega) (Nat.le_max_left _ _)
    · exact le_trans (by omega) (Nat.le_max_right _ _)
  · intro hSB
    rw [hkept, hsum]
    omega
  · intro m hm hsysm
    have hmm : m ∈ messages.enum.map Prod.snd := by
      rw [List.enum_map_snd]
      exact hm
    obtain ⟨p, hp, hpe⟩ := List.mem_map.mp hmm
    have hA : ((messages.enum.filter fun q => Workbench.isSystem q.2).map Prod.fst).contains p.1
        = true := by
      have : p ∈ messages.enum.filter fun q => Workbench.isSystem q.2 :=
        List.mem_filter.mpr ⟨hp, by rw [hpe]; exact hsysm⟩
      simp only [List.contains_eq_any_beq, List.any_eq_true]
      exact ⟨p.1, List.mem_map_of_mem Prod.fst this, by simp⟩
    have hpred : (Workbench.packKeptIdx countText messages toolsDump sp mc mo rz).contains p.1
        = true := by
      unfold Workbench.packKeptIdx
      rw [contains_append_nat, hA]
      rfl
    rw [hkept]
    unfold Workbench.packKept
    rw [← hpe]
    exact List.mem_map_of_mem Prod.snd (List.mem_filter.mpr ⟨hp, hpred⟩)

/-- Witness for `c5_amended` at a concrete conversation: one system and
one user message, budget 100. -/
theorem c5_amended_witness :
    (((Workbench.pack String.length
        [⟨"system", "s", none, none, none, none⟩, ⟨"user", "u", none, none, none, none⟩]
        none "" 100 0 0).1.map (Workbench.message_tokens String.length)).sum
      ≤ max (Workbench.packBudget String.length none "" 100 0 0)
          (Workbench.systemTokensOf String.length
            [⟨"system", "s", none, none, none, none⟩, ⟨"user", "u", none, none, none, none⟩]))
    ∧ (((Workbench.pack String.length
        [⟨"system", "s", none, none, none, none⟩, ⟨"user", "u", none, none, none, none⟩]
        none "" 100 0 0).1.map (Workbench.message_tokens String.length)).sum
      ≤ Workbench.packBudget String.length none "" 100 0 0)
    ∧ (⟨"system", "s", none, none, none, none⟩ : Workbench.Message)
        ∈ (Workbench.pack String.length
            [⟨"system", "s", none, none, none, none⟩, ⟨"user", "u", none, none, none, none⟩]
            none "" 100 0 0).1 := by
  have h := c5_amended String.length
    [⟨"system", "s", none, none, none, none⟩, ⟨"user", "u", none, none, none, none⟩]
    none "" 100 0 0
  exact ⟨h.1, h.2.1 (by decide), h.2.2 ⟨"system", "s", none, none, none, none⟩
    (by decide) (by decide)⟩

/-! ## Claim C4 : ToolCallAssembler -/

/-- After `finalize`, no buffer remains at the finalized index. -/
theorem lookupBuf_eraseBuf (buf : List (Int × Workbench.BufEntry)) (i : Int) :
    Workbench.lookupBuf (Workbench.eraseBuf buf i) i = none := by
  unfold Workbench.lookupBuf Workbench.eraseBuf
  rw [List.find?_eq_none.mpr]
  · rfl
  · intro p hp
    have := (List.mem_filter.mp hp).2
    simpa using this

/-- C4 counterexample: feeding `done=True` for call_index 0 twice
produces two ToolCalls for the same index — a delta for an
already-finalized index re-creates the buffer via `setdefault` rather
than being a no-op, so "at most one ToolCall is ever produced for that
call_index" fails. -/
theorem c4_counterexample :
    ((Workbench.feedMany Workbench.jsonLoadsStub Workbench.asmInit
        [⟨0, none, "", "", true⟩, ⟨0, none, "", "", true⟩]).2.map
      (fun tc => tc.id)) = ["call_0", "call_0"]
    ∧ (Workbench.feedMany Workbench.jsonLoadsStub Workbench.asmInit
        [⟨0, none, "", "", true⟩, ⟨0, none, "", "", true⟩]).2.length = 2
    ∧ (Workbench.feedMany Workbench.jsonLoadsStub Workbench.asmInit
        [⟨0, none, "", "", true⟩, ⟨0, none, "", "", true⟩]).1.errors = [] := by
  refine ⟨rfl, rfl, rfl⟩

/-- C4 amended: a single `feed` produces at most one ToolCall;
finalization removes the index's buffer; a buffer whose accumulated
argument string is malformed JSON produces no ToolCall and records
exactly one error.  (A delta fed for an already-finalized index is not a
no-op: it starts a fresh buffer, which may produce an additional
ToolCall for the same call_index — see the counterexample.) -/
theorem c4_amended {A : Type} (parse : String → Option A) (st : Workbench.AsmState)
    (d : Workbench.RawToolDelta) (i : Int) :
    ((Workbench.feed parse st d).2.length ≤ 1)
    ∧ (Workbench.lookupBuf ((Workbench.finalize parse st i).1.buf) i = none)
    ∧ (∀ b, Workbench.lookupBuf st.buf i = some b →
        parse (if b.args == "" then "\x7b\x7d" else b.args) = none →
        (Workbench.finalize parse st i).2 = []
        ∧ (Workbench.finalize parse st i).1.errors
            = st.errors ++ [Workbench.parseErrorMsg i]) := by
  have hfin : ∀ (st' : Workbench.AsmState) (j : Int),
      (Workbench.finalize parse st' j).2.length ≤ 1
      ∧ Workbench.lookupBuf ((Workbench.finalize parse st' j).1.buf) j = none := by
    intro st' j
    cases hlook : Workbench.lookupBuf st'.buf j with
    | none =>
      unfold Workbench.finalize
      rw [hlook]
      exact ⟨by simp, by simpa using hlook⟩
    | some b =>
      unfold Workbench.finalize
      rw [hlook]
      dsimp only
      constructor
      · split
        · simp
        · simp
      · split
        · simpa using lookupBuf_eraseBuf st'.buf j
        · simpa using lookupBuf_eraseBuf st'.buf j
  refine ⟨?_, (hfin st i).2, ?_⟩
  · unfold Workbench.feed
    cases hd : d.done
    · simp
    · simp only [if_true]
      exact (hfin _ d.call_index).1
  · intro b hb hparse
    unfold Workbench.finalize
    rw [hb]
    dsimp only
    split
    · exact ⟨rfl, rfl⟩
    · rename_i a heq
      rw [hparse] at heq
      exact absurd heq (by simp)

/-- Witness for `c4_amended`: a state holding a buffer with malformed
arguments at index 0 yields no ToolCall and exactly one recorded error. -/
theorem c4_amended_witness :
    ((Workbench.feed Workbench.jsonLoadsStub
        ⟨[(0, ⟨none, "f", "notjson"⟩)], []⟩ ⟨0, none, "", "", true⟩).2.length ≤ 1)
    ∧ (Workbench.lookupBuf ((Workbench.finalize Workbench.jsonLoadsStub
        ⟨[(0, ⟨none, "f", "notjson"⟩)], []⟩ 0).1.buf) 0 = none)
    ∧ ((Workbench.finalize Workbench.jsonLoadsStub
          ⟨[(0, ⟨none, "f", "notjson"⟩)], []⟩ 0).2 = []
        ∧ (Workbench.finalize Workbench.jsonLoadsStub
            ⟨[(0, ⟨none, "f", "notjson"⟩)], []⟩ 0).1.errors
          = [] ++ [Workbench.parseErrorMsg 0]) := by
  have h := c4_amended Workbench.jsonLoadsStub
    ⟨[(0, ⟨none, "f", "notjson"⟩)], []⟩ ⟨0, none, "", "", true⟩ 0
  exact ⟨h.1, h.2.1, h.2.2 ⟨none, "f", "notjson"⟩ rfl rfl⟩

/-! ## Claim C2 : orchestrator audit on timeout -/

/-- C2 (code bug): a tool call ending in a timeout appends the
`tool_call_result` event but never invokes `policy.audit_log` — the
audit call is present only in the exception branch of the source
(which carries the comment "Still audit even on exception") — while the
claim and the spec require audit logging for both outcomes. -/
theorem c2_code_bug (t : Nat) (msg : String) :
    ((Workbench.executePhase t Workbench.ExecOutcome.timeout).2.any
        Workbench.isAuditEffect) = false
    ∧ ((Workbench.executePhase t (Workbench.ExecOutcome.exception msg)).2.any
        Workbench.isAuditEffect) = true
    ∧ (Workbench.executePhase t Workbench.ExecOutcome.timeout).1.error_code = some "timeout"
    ∧ ((Workbench.executePhase t Workbench.ExecOutcome.timeout).2.any
        (fun e => match e with
          | Workbench.ExecEffect.appendResultEvent _ => true
          | Workbench.ExecEffect.auditLog _ => false)) = true := by
  refine ⟨rfl, rfl, rfl, rfl⟩

/-! ## Claim C9 : future schema version -/

/-- C9 (code bug): `_run_migrations` returns silently for any persisted
version `>= SCHEMA_VERSION`, so opening a store whose persisted schema
version is `SCHEMA_VERSION + 1 = 2` succeeds with no migrations and no
error, while the claim and the spec require an error for unknown future
versions.  (From version 0 the registered migration to version 1 does
run.) -/
theorem c9_code_bug :
    Workbench.run_migrations (Workbench.SCHEMA_VERSION + 1) = Except.ok []
    ∧ (Workbench.run_migrations 0).toOption.map (fun l => l.map Prod.fst) = some [1] := by
  refine ⟨rfl, rfl⟩

/-! ## Claim C6 : audit record privacy fields -/

/-- C6 counterexample: with the single (literal) redaction pattern "RED"
and a PUBLIC tool whose output is "RED", the recorded output is the
replacement text "***REDACTED***", which itself contains the substring
"RED" matching the redaction pattern — refuting the claim's guarantee
that the recorded PUBLIC output "contains no substring matching a
redaction regex". -/
theorem c6_counterexample :
    (Workbench.audit_privacy_fields ["RED".toList]
        ⟨"t", Workbench.ToolRisk.READ_ONLY, Workbench.PrivacyScope.PUBLIC, []⟩
        [] ("RED".toList)).output = "***REDACTED***".toList
    ∧ Workbench.hasSub ("RED".toList)
        ((Workbench.audit_privacy_fields ["RED".toList]
          ⟨"t", Workbench.ToolRisk.READ_ONLY, Workbench.PrivacyScope.PUBLIC, []⟩
          [] ("RED".toList)).output) = true := by
  refine ⟨by decide, by decide⟩

/-- C6 amended: the audit record's args and output are determined by the
privacy scope as in the source — PUBLIC: args = redacted arguments,
output = redaction applied to the output truncated to 2000 characters;
SENSITIVE: args = the literal, output = redaction of the 500-character
truncation; SECRET: both the literal — and consequently the recorded
output depends on at most the first 2000 characters of the tool output
(after redaction it may exceed 2000 characters and may contain text
matching a redaction pattern). -/
theorem c6_amended (pats : List (List Char)) (tool : Workbench.ToolMeta)
    (kwargs : List (String × List Char)) (content other : List Char) :
    (tool.privacy_scope = Workbench.PrivacyScope.PUBLIC →
      Workbench.audit_privacy_fields pats tool kwargs content
        = ⟨Workbench.AuditArgsField.dict
            (Workbench.redact_args_for_audit pats tool.secret_fields kwargs),
           Workbench.redact pats (content.take 2000)⟩)
    ∧ (tool.privacy_scope = Workbench.PrivacyScope.SENSITIVE →
      Workbench.audit_privacy_fields pats tool kwargs content
        = ⟨Workbench.AuditArgsField.redactedLiteral,
           Workbench.redact pats (content.take 500)⟩)
    ∧ (tool.privacy_scope = Workbench.PrivacyScope.SECRET →
      Workbench.audit_privacy_fields pats tool kwargs content
        = ⟨Workbench.AuditArgsField.redactedLiteral, "***REDACTED***".toList⟩)
    ∧ (content.take 2000 = other.take 2000 →
      (Workbench.audit_privacy_fields pats tool kwargs content).output
        = (Workbench.audit_privacy_fields pats tool kwargs other).output) := by
  refine ⟨?_, ?_, ?_, ?_⟩
  · intro h
    unfold Workbench.audit_privacy_fields
    rw [h]
  · intro h
    unfold Workbench.audit_privacy_fields
    rw [h]
  · intro h
    unfold Workbench.audit_privacy_fields
    rw [h]
  · intro h
    have h500 : content.take 500 = other.take 500 := by
      have hc : content.take 500 = (content.take 2000).take 500 := by
        rw [List.take_take]
        norm_num
      have ho : other.take 500 = (other.take 2000).take 500 := by
        rw [List.take_take]
        norm_num
      rw [hc, ho, h]
    unfold Workbench.audit_privacy_fields
    cases tool.privacy_scope
    · rw [h]
    · rw [h500]
    · rfl

/-- Witness for `c6_amended` at concrete inputs covering all three
privacy scopes and the truncation-determination clause. -/
theorem c6_amended_witness :
    (Workbench.audit_privacy_fields ["p".toList]
        ⟨"t", Workbench.ToolRisk.READ_ONLY, Workbench.PrivacyScope.PUBLIC, ["k"]⟩
        [("k", "v".toList)] ("out".toList)
      = ⟨Workbench.AuditArgsField.dict
          (Workbench.redact_args_for_audit ["p".toList] ["k"] [("k", "v".toList)]),
         Workbench.redact ["p".toList] (("out".toList).take 2000)⟩)
    ∧ (Workbench.audit_privacy_fields ["p".toList]
        ⟨"t", Workbench.ToolRisk.READ_ONLY, Workbench.PrivacyScope.SENSITIVE, []⟩
        [] ("out".toList)
      = ⟨Workbench.AuditArgsField.redactedLiteral,
         Workbench.redact ["p".toList] (("out".toList).take 500)⟩)
    ∧ (Workbench.audit_privacy_fields ["p".toList]
        ⟨"t", Workbench.ToolRisk.READ_ONLY, Workbench.PrivacyScope.SECRET, []⟩
        [] ("out".toList)
      = ⟨Workbench.AuditArgsField.redactedLiteral, "***REDACTED***".toList⟩)
    ∧ ((Workbench.audit_privacy_fields ["p".toList]
        ⟨"t", Workbench.ToolRisk.READ_ONLY, Workbench.PrivacyScope.PUBLIC, ["k"]⟩
        [("k", "v".toList)] ("out".toList)).output
      = (Workbench.audit_privacy_fields ["p".toList]
        ⟨"t", Workbench.ToolRisk.READ_ONLY, Workbench.PrivacyScope.PUBLIC, ["k"]⟩
        [("k", "v".toList)] ("out".toList)).output) := by
  refine ⟨?_, ?_, ?_, ?_⟩
  · exact (c6_amended ["p".toList]
      ⟨"t", Workbench.ToolRisk.READ_ONLY, Workbench.PrivacyScope.PUBLIC, ["k"]⟩
      [("k", "v".toList)] ("out".toList) ("out".toList)).1 rfl
  · exact (c6_amended ["p".toList]
      ⟨"t", Workbench.ToolRisk.READ_ONLY, Workbench.PrivacyScope.SENSITIVE, []⟩
      [] ("out".toList) ("out".toList)).2.1 rfl
  · exact (c6_amended ["p".toList]
      ⟨"t", Workbench.ToolRisk.READ_ONLY, Workbench.PrivacyScope.SECRET, []⟩
      [] ("out".toList) ("out".toList)).2.2.1 rfl
  · exact (c6_amended ["p".toList]
      ⟨"t", Workbench.ToolRisk.READ_ONLY, Workbench.PrivacyScope.PUBLIC, ["k"]⟩
      [("k", "v".toList)] ("out".toList) ("out".toList)).2.2.2 rfl

/-! ## Claim C10 : Session._flush_pending / get_messages -/

/-- When no assistant message exists, the backwards walk finds nothing
and leaves the message list unchanged. -/
theorem sess_attach_no_assistant (pending : List Workbench.ToolCallM) :
    ∀ msgs : List Workbench.Message,
      (∀ m ∈ msgs, m.role ≠ "assistant") →
      Workbench.attachToLastAssistant pending msgs = msgs := by
  intro msgs h
  cases msgs with
  | nil => rfl
  | cons m rest =>
    have hany : rest.any (fun x => x.role == "assistant") = false := by
      rw [List.any_eq_false]
      intro x hx
      simpa using h x (by simp [hx])
    have hm : (m.role == "assistant") = false := by
      simpa using h m (by simp)
    simp [Workbench.attachToLastAssistant, hany, hm]

/-- `_flush_pending` is the identity on a list without assistant
messages, for any pending buffer. -/
theorem sess_flush_no_assistant (msgs : List Workbench.Message)
    (pending : List Workbench.ToolCallM)
    (h : ∀ m ∈ msgs, m.role ≠ "assistant") :
    Workbench.flushPending msgs pending = msgs := by
  unfold Workbench.flushPending
  cases hp : pending.isEmpty
  · simp only [Bool.false_eq_true, if_false]
    exact sess_attach_no_assistant pending msgs h
  · simp

/-- With a non-empty pending buffer, `_flush_pending` extends the
tool-call list of the most recent assistant message, wherever it is. -/
theorem sess_flush_attach_last (pending : List Workbench.ToolCallM)
    (hpend : pending ≠ []) :
    ∀ (l r : List Workbench.Message) (a : Workbench.Message),
      a.role = "assistant" → (∀ m ∈ r, m.role ≠ "assistant") →
      Workbench.flushPending (l ++ a :: r) pending
        = l ++ { a with tool_calls := some (a.tool_calls.getD [] ++ pending) } :: r := by
  have hne : pending.isEmpty = false := by
    cases pending
    · exact absurd rfl hpend
    · rfl
  intro l
  induction l with
  | nil =>
    intro r a ha hr
    unfold Workbench.flushPending
    rw [hne]
    simp only [Bool.false_eq_true, if_false, List.nil_append]
    have hany : r.any (fun x => x.role == "assistant") = false := by
      rw [List.any_eq_false]
      intro x hx
      simpa using hr x hx
    simp [Workbench.attachToLastAssistant, hany, ha]
  | cons x l ih =>
    intro r a ha hr
    have hflush := ih r a ha hr
    unfold Workbench.flushPending at hflush ⊢
    rw [hne] at hflush ⊢
    simp only [Bool.false_eq_true, if_false] at hflush ⊢
    have hany : (l ++ a :: r).any (fun x => x.role == "assistant") = true := by
      rw [List.any_eq_true]
      exact ⟨a, by simp, by simp [ha]⟩
    simp only [List.cons_append]
    unfold Workbench.attachToLastAssistant
    rw [hany]
    simp only [if_true, hflush, List.cons_append]

/-- Walking events that contain no `assistant_message` yields only
non-assistant messages, each with no tool calls. -/
theorem sess_derive_no_assistant :
    ∀ (events : List Workbench.EventK) (acc : List Workbench.Message × List Workbench.ToolCallM),
      (∀ e ∈ events, Workbench.isAssistantEvent e = false) →
      (∀ m ∈ acc.1, m.role ≠ "assistant" ∧ m.tool_calls = none) →
      ∀ m ∈ (events.foldl Workbench.deriveStep acc).1,
        m.role ≠ "assistant" ∧ m.tool_calls = none := by
  intro events
  induction events with
  | nil => intro acc _ hinv; simpa using hinv
  | cons e rest ih =>
    intro acc hev hinv
    rw [List.foldl_cons]
    apply ih
    · intro e' he'
      exact hev e' (by simp [he'])
    · have hroles : ∀ m ∈ acc.1, m.role ≠ "assistant" := fun m hm => (hinv m hm).1
      have hflush : Workbench.flushPending acc.1 acc.2 = acc.1 :=
        sess_flush_no_assistant acc.1 acc.2 hroles
      cases e with
      | userMessage c =>
        intro m hm
        simp only [Workbench.deriveStep, hflush] at hm
        rcases List.mem_append.mp hm with h | h
        · exact hinv m h
        · simp only [List.mem_singleton] at h
          subst h
          exact ⟨by simp, rfl⟩
      | assistantMessage c mdl =>
        have := hev (Workbench.EventK.assistantMessage c mdl) (by simp)
        exact absurd this (by simp [Workbench.isAssistantEvent])
      | toolCallRequest tid tn aj =>
        intro m hm
        simp only [Workbench.deriveStep] at hm
        exact hinv m hm
      | toolCallResult tid c err =>
        intro m hm
        simp only [Workbench.deriveStep, hflush] at hm
        rcases List.mem_append.mp hm with h | h
        · exact hinv m h
        · simp only [List.mem_singleton] at h
          subst h
          exact ⟨by simp, rfl⟩
      | metaEvent =>
        intro m hm
        simp only [Workbench.deriveStep] at hm
        exact hinv m hm

/-- C10: pending tool calls are attached at flush time to the most
recent assistant message anywhere earlier in the derived list; when no
assistant message exists, they are silently discarded — the list is
unchanged and, in a derivation whose events contain no assistant
message, no derived message carries any tool call. -/
theorem c10_flush_semantics :
    (∀ (msgs : List Workbench.Message) (pending : List Workbench.ToolCallM),
      (∀ m ∈ msgs, m.role ≠ "assistant") →
      Workbench.flushPending msgs pending = msgs)
    ∧ (∀ (pending : List Workbench.ToolCallM) (l r : List Workbench.Message)
          (a : Workbench.Message),
        pending ≠ [] → a.role = "assistant" → (∀ m ∈ r, m.role ≠ "assistant") →
        Workbench.flushPending (l ++ a :: r) pending
          = l ++ { a with tool_calls := some (a.tool_calls.getD [] ++ pending) } :: r)
    ∧ (∀ events : List Workbench.EventK,
        (∀ e ∈ events, Workbench.isAssistantEvent e = false) →
        ∀ m ∈ Workbench.getMessages events, m.tool_calls = none) := by
  refine ⟨sess_flush_no_assistant, ?_, ?_⟩
  · intro pending l r a hp ha hr
    exact sess_flush_attach_last pending hp l r a ha hr
  · intro events hev m hm
    have hinv := sess_derive_no_assistant events ([], []) hev (by simp)
    unfold Workbench.getMessages at hm
    have hflush : Workbench.flushPending (events.foldl Workbench.deriveStep ([], [])).1
        (events.foldl Workbench.deriveStep ([], [])).2
        = (events.foldl Workbench.deriveStep ([], [])).1 :=
      sess_flush_no_assistant _ _ (fun m' hm' => (hinv m' hm').1)
    rw [hflush] at hm
    exact (hinv m hm).2

/-- Witness for `c10_flush_semantics` at concrete inputs: a user-only
list discards pending calls unchanged; a lone assistant message receives
them; a derivation of user + tool_call_request events (no assistant)
yields messages without tool calls. -/
theorem c10_flush_semantics_witness :
    (Workbench.flushPending [⟨"user", "u", none, none, none, none⟩]
        [⟨"1", "t", "\x7b\x7d"⟩] = [⟨"user", "u", none, none, none, none⟩])
    ∧ (Workbench.flushPending
        ([] ++ (⟨"assistant", "a", none, none, none, none⟩ : Workbench.Message) :: [])
        [⟨"1", "t", "\x7b\x7d"⟩]
      = [] ++ { (⟨"assistant", "a", none, none, none, none⟩ : Workbench.Message) with
          tool_calls := some ((Option.getD none []) ++ [⟨"1", "t", "\x7b\x7d"⟩]) } :: [])
    ∧ (∀ m ∈ Workbench.getMessages
        [Workbench.EventK.userMessage "hi",
         Workbench.EventK.toolCallRequest "1" "t" "\x7b\x7d"],
        m.tool_calls = none) := by
  have h := c10_flush_semantics
  refine ⟨?_, ?_, ?_⟩
  · exact h.1 [⟨"user", "u", none, none, none, none⟩] [⟨"1", "t", "\x7b\x7d"⟩]
      (by intro m hm; simp only [List.mem_singleton] at hm; subst hm; simp)
  · exact h.2.1 [⟨"1", "t", "\x7b\x7d"⟩] [] []
      ⟨"assistant", "a", none, none, none, none⟩ (by decide) rfl
      (by intro m hm; cases hm)
  · exact h.2.2
      [Workbench.EventK.userMessage "hi",
       Workbench.EventK.toolCallRequest "1" "t" "\x7b\x7d"]
      (by decide)

/-! ## Claims C7 and C8 : ArtifactStore path safety and round trip -/

/-- `patP` is never empty. -/
theorem patP_ne_nil : ∀ bs : List (List Char), Workbench.patP bs ≠ [] := by
  intro bs
  cases bs <;> simp [Workbench.patP]

/-- `patP` always begins with a slash. -/
theorem patP_head : ∀ bs : List (List Char), (Workbench.patP bs).head? = some '/' := by
  intro bs
  cases bs <;> simp [Workbench.patP]

/-- For a nonempty base, `str(base) + "/"` is `patP base`. -/
theorem renderPath_eq_patP : ∀ base : List (List Char), base ≠ [] →
    Workbench.renderPath base ++ ['/'] = Workbench.patP base := by
  intro base
  induction base with
  | nil => intro h; contradiction
  | cons b bs ih =>
    intro _
    cases bs with
    | nil => simp [Workbench.renderPath, Workbench.patP]
    | cons b2 bs2 =>
      show (('/' :: b) ++ Workbench.renderPath (b2 :: bs2)) ++ ['/'] = _
      rw [List.append_assoc, ih (by simp)]
      simp [Workbench.patP]

/-- For a nonempty path, `str(path)` is `tgtP path`. -/
theorem renderPath_eq_tgtP : ∀ p : List (List Char), p ≠ [] →
    Workbench.renderPath p = Workbench.tgtP p := by
  intro p
  induction p with
  | nil => intro h; contradiction
  | cons s rest ih =>
    intro _
    cases rest with
    | nil => simp [Workbench.renderPath, Workbench.tgtP]
    | cons r rest2 =>
      show ('/' :: s) ++ Workbench.renderPath (r :: rest2) = _
      rw [ih (by simp)]
      simp [Workbench.tgtP]

/-- Splitting a prefix comparison at a segment boundary: with slash-free
segments `b` and `q` and suffixes that begin at a slash, the prefix test
decomposes segmentwise. -/
theorem leadsWith_seg_split :
    ∀ (b q pl ql : List Char), (∀ c ∈ b, c ≠ '/') → (∀ c ∈ q, c ≠ '/') →
      pl.head? = some '/' → (ql = [] ∨ ql.head? = some '/') →
      (Workbench.leadsWith (b ++ pl) (q ++ ql) = true
        ↔ b = q ∧ Workbench.leadsWith pl ql = true) := by
  intro b
  induction b with
  | nil =>
    intro q pl ql _ hq hpl _
    cases q with
    | nil => simp
    | cons c q' =>
      obtain ⟨pl', rfl⟩ : ∃ pl', pl = '/' :: pl' := by
        cases pl with
        | nil => simp at hpl
        | cons x xs =>
          simp only [List.head?_cons, Option.some_inj] at hpl
          exact ⟨xs, by rw [hpl]⟩
      constructor
      · intro h
        exfalso
        simp only [List.nil_append, List.cons_append, Workbench.leadsWith,
          Bool.and_eq_true, beq_iff_eq] at h
        exact hq c (by simp) h.1.symm
      · rintro ⟨h, _⟩
        exact absurd h (by simp)
  | cons a b' ih =>
    intro q pl ql hb hq hpl hql
    have ha : a ≠ '/' := hb a (by simp)
    cases q with
    | nil =>
      constructor
      · intro h
        exfalso
        rcases hql with rfl | hql'
        · simp only [List.cons_append, List.nil_append, List.append_nil] at h
          cases hplc : pl with
          | nil => rw [hplc] at hpl; simp at hpl
          | cons x xs => rw [hplc] at h; simp [Workbench.leadsWith] at h
        · obtain ⟨ql', rfl⟩ : ∃ t, ql = '/' :: t := by
            cases ql with
            | nil => simp at hql'
            | cons x xs =>
              simp only [List.head?_cons, Option.some_inj] at hql'
              exact ⟨xs, by rw [hql']⟩
          simp only [List.cons_append, List.nil_append, Workbench.leadsWith,
            Bool.and_eq_true, beq_iff_eq] at h
          exact ha h.1
      · rintro ⟨h, _⟩
        exact absurd h (by simp)
    | cons c q' =>
      have hstep : Workbench.leadsWith ((a :: b') ++ pl) ((c :: q') ++ ql)
          = ((a == c) && Workbench.leadsWith (b' ++ pl) (q' ++ ql)) := rfl
      rw [hstep, Bool.and_eq_true, beq_iff_eq,
        ih q' pl ql (fun x hx => hb x (by simp [hx])) (fun x hx => hq x (by simp [hx])) hpl hql]
      constructor
      · rintro ⟨rfl, rfl, h⟩
        exact ⟨rfl, h⟩
      · rintro ⟨h, h2⟩
        rw [List.cons_eq_cons] at h
        exact ⟨h.1, h.2, h2⟩

/-- A clean segment is slash-free. -/
theorem cleanSeg_no_slash (s : List Char) (h : Workbench.isCleanSeg s = true) :
    ∀ c ∈ s, c ≠ '/' := by
  intro c hc heq
  unfold Workbench.isCleanSeg at h
  rw [Bool.and_eq_true] at h
  have := h.2
  rw [Bool.not_eq_true'] at this
  rw [heq] at hc
  simp only [List.contains_eq_any_beq, List.any_eq_false] at this
  exact absurd (by simp) (this '/' hc)

/-- The startswith half of the validation check, characterized: for clean
segments and a nonempty base, `str(p)` extends `str(base) + "/"` exactly
when `p` is a proper descendant of `base`. -/
theorem leadsWith_patP_iff :
    ∀ (base p : List (List Char)),
      (∀ s ∈ base, Workbench.isCleanSeg s = true) →
      (∀ s ∈ p, Workbench.isCleanSeg s = true) → base ≠ [] →
      (Workbench.leadsWith (Workbench.patP base) (Workbench.renderPath p) = true
        ↔ ∃ t, t ≠ [] ∧ p = base ++ t) := by
  intro base
  induction base with
  | nil => intro p _ _ h; contradiction
  | cons b bs ih =>
    intro p hb hp _
    cases p with
    | nil =>
      constructor
      · intro h
        exfalso
        have hpat : Workbench.patP (b :: bs) = '/' :: (b ++ Workbench.patP bs) := rfl
        rw [hpat] at h
        have hren : Workbench.renderPath ([] : List (List Char)) = ['/'] := rfl
        rw [hren] at h
        simp only [Workbench.leadsWith, Bool.and_eq_true] at h
        cases hc : b ++ Workbench.patP bs with
        | nil => exact (patP_ne_nil bs) (List.append_eq_nil.mp hc).2
        | cons x xs =>
          rw [hc] at h
          simp [Workbench.leadsWith] at h
      · rintro ⟨t, ht, he⟩
        exact absurd he (by simp)
    | cons q rest =>
      have hbcl := hb b (by simp)
      have hqcl := hp q (by simp)
      have hbs := cleanSeg_no_slash b hbcl
      have hqs := cleanSeg_no_slash q hqcl
      have hqlside : Workbench.tgtP rest = [] ∨ (Workbench.tgtP rest).head? = some '/' := by
        cases rest with
        | nil => left; rfl
        | cons r rest2 => right; rfl
      have hsplit := leadsWith_seg_split b q (Workbench.patP bs) (Workbench.tgtP rest)
        hbs hqs (patP_head bs) hqlside
      rw [renderPath_eq_tgtP (q :: rest) (by simp)]
      have hpat : Workbench.patP (b :: bs) = '/' :: (b ++ Workbench.patP bs) := rfl
      have htgt : Workbench.tgtP (q :: rest) = '/' :: (q ++ Workbench.tgtP rest) := rfl
      rw [hpat, htgt]
      have hhead : Workbench.leadsWith ('/' :: (b ++ Workbench.patP bs))
          ('/' :: (q ++ Workbench.tgtP rest))
          = Workbench.leadsWith (b ++ Workbench.patP bs) (q ++ Workbench.tgtP rest) := by
        simp [Workbench.leadsWith]
      rw [hhead, hsplit]
      cases bs with
      | nil =>
        cases rest with
        | nil =>
          constructor
          · rintro ⟨rfl, h⟩
            exact absurd h (by simp [Workbench.patP, Workbench.tgtP, Workbench.leadsWith])
          · rintro ⟨t, ht, he⟩
            rw [List.singleton_append, List.cons_eq_cons] at he
            have : t = [] := he.2.symm
            exact absurd this ht
        | cons r rest2 =>
          constructor
          · rintro ⟨rfl, _⟩
            exact ⟨r :: rest2, by simp, rfl⟩
          · rintro ⟨t, ht, he⟩
            rw [List.singleton_append, List.cons_eq_cons] at he
            refine ⟨he.1.symm, ?_⟩
            show Workbench.leadsWith (Workbench.patP []) (Workbench.tgtP (r :: rest2)) = true
            simp [Workbench.patP, Workbench.tgtP, Workbench.leadsWith]
      | cons b2 bs2 =>
        cases rest with
        | nil =>
          constructor
          · rintro ⟨rfl, h⟩
            exfalso
            have : Workbench.patP (b2 :: bs2) = '/' :: (b2 ++ Workbench.patP bs2) := rfl
            rw [this] at h
            simp [Workbench.tgtP, Workbench.leadsWith] at h
          · rintro ⟨t, ht, he⟩
            exfalso
            have hlen := congrArg List.length he
            simp at hlen
        | cons r rest2 =>
          have hih := ih (r :: rest2)
            (fun s hs => hb s (by simp [hs]))
            (fun s hs => hp s (by simp [hs])) (by simp)
          rw [renderPath_eq_tgtP (r :: rest2) (by simp)] at hih
          rw [hih]
          constructor
          · rintro ⟨rfl, t, ht, he⟩
            refine ⟨t, ht, ?_⟩
            rw [he]
            simp
          · rintro ⟨t, ht, he⟩
            rw [List.cons_append, List.cons_eq_cons] at he
            exact ⟨he.1.symm, t, ht, he.2⟩

/-- The validation comparison characterized: for clean segments and a
non-root base, `_validate_under_base` accepts a resolved path exactly
when it is the base or one of its descendants. -/
theorem validateOk_iff (base p : List (List Char))
    (hb : ∀ s ∈ base, Workbench.isCleanSeg s = true)
    (hp : ∀ s ∈ p, Workbench.isCleanSeg s = true)
    (hroot : base ≠ []) :
    (Workbench.validateOk base p = true ↔ Workbench.underBase base p) := by
  unfold Workbench.validateOk Workbench.underBase
  rw [Bool.or_eq_true, renderPath_eq_patP base hroot,
    leadsWith_patP_iff base p hb hp hroot]
  constructor
  · rintro (⟨t, _, rfl⟩ | heq)
    · exact ⟨t, rfl⟩
    · exact ⟨[], by rw [List.append_nil, beq_iff_eq.mp heq]⟩
  · rintro ⟨t, rfl⟩
    cases t with
    | nil => right; simp
    | cons x xs => left; exact ⟨x :: xs, by simp, rfl⟩

/-- `splitOnSlash` never returns the empty list. -/
theorem splitOnSlash_ne_nil : ∀ l : List Char, Workbench.splitOnSlash l ≠ [] := by
  intro l
  induction l with
  | nil => simp [Workbench.splitOnSlash]
  | cons c rest ih =>
    unfold Workbench.splitOnSlash
    cases h : Workbench.splitOnSlash rest with
    | nil => exact absurd h ih
    | cons seg segs =>
      by_cases hc : (c == '/') = true <;> simp [hc]

/-- Every piece produced by `splitOnSlash` is slash-free. -/
theorem splitOnSlash_no_slash :
    ∀ (l : List Char) (seg : List Char), seg ∈ Workbench.splitOnSlash l → '/' ∉ seg := by
  intro l
  induction l with
  | nil =>
    intro seg hseg
    simp [Workbench.splitOnSlash] at hseg
    simp [hseg]
  | cons c rest ih =>
    intro seg hseg
    cases h : Workbench.splitOnSlash rest with
    | nil => exact absurd h (splitOnSlash_ne_nil rest)
    | cons s ss =>
      have hred : Workbench.splitOnSlash (c :: rest)
          = if (c == '/') = true then [] :: s :: ss else (c :: s) :: ss := by
        unfold Workbench.splitOnSlash
        rw [h]
      rw [hred] at hseg
      by_cases hc : (c == '/') = true
      · rw [if_pos hc] at hseg
        rcases List.mem_cons.mp hseg with rfl | hmem
        · simp
        · exact ih seg (h ▸ hmem)
      · rw [if_neg hc] at hseg
        rcases List.mem_cons.mp hseg with rfl | hmem
        · intro hsl
          rcases List.mem_cons.mp hsl with heq | hmem2
          · exact hc (by simp [heq.symm])
          · exact ih s (by rw [h]; simp) hmem2
        · exact ih seg (by rw [h]; simp [hmem])

/-- Every segment parsed from a string is clean. -/
theorem splitSegs_clean (s : List Char) :
    ∀ seg ∈ Workbench.splitSegs s, Workbench.isCleanSeg seg = true := by
  intro seg hseg
  unfold Workbench.splitSegs at hseg
  have hm := List.mem_filter.mp hseg
  unfold Workbench.isCleanSeg
  rw [Bool.and_eq_true]
  refine ⟨hm.2, ?_⟩
  have := splitOnSlash_no_slash s seg hm.1
  rw [Bool.not_eq_true']
  simp only [List.contains_eq_any_beq, List.any_eq_false]
  intro c hc
  simp only [beq_iff_eq]
  intro he
  exact this (he ▸ hc)

/-- A slash-free string is a single split piece. -/
theorem splitOnSlash_noslash_eq :
    ∀ s : List Char, '/' ∉ s → Workbench.splitOnSlash s = [s] := by
  intro s
  induction s with
  | nil => intro _; rfl
  | cons c rest ih =>
    intro h
    have hc : c ≠ '/' := fun he => h (by simp [he])
    have hrest : '/' ∉ rest := fun hm => h (by simp [hm])
    unfold Workbench.splitOnSlash
    rw [ih hrest]
    simp [hc]

/-- A nonempty slash-free string parses to exactly one segment. -/
theorem splitSegs_noslash (s : List Char) (hne : s ≠ []) (hns : '/' ∉ s) :
    Workbench.splitSegs s = [s] := by
  unfold Workbench.splitSegs
  rw [splitOnSlash_noslash_eq s hns]
  simp [hne]

/-- Appending a non-dot segment commutes with resolution. -/
theorem resolveSegs_append_one (p : List (List Char)) (s : List Char)
    (h1 : s ≠ ['.']) (h2 : s ≠ ['.', '.']) :
    Workbench.resolveSegs (p ++ [s]) = Workbench.resolveSegs p ++ [s] := by
  unfold Workbench.resolveSegs
  rw [List.foldl_append]
  simp [h1, h2]

/-- Segments surviving resolution satisfy any property holding on the
input segments. -/
theorem resolveFold_mem (Q : List Char → Prop) :
    ∀ (p : List (List Char)) (acc : List (List Char)),
      (∀ s ∈ acc, Q s) → (∀ s ∈ p, Q s) →
      ∀ s ∈ p.foldl (fun acc seg =>
          if seg = ['.'] then acc
          else if seg = ['.', '.'] then acc.dropLast
          else acc ++ [seg]) acc, Q s := by
  intro p
  induction p with
  | nil => intro acc hacc _ s hs; exact hacc s hs
  | cons x rest ih =>
    intro acc hacc hp
    rw [List.foldl_cons]
    apply ih
    · by_cases hx1 : x = ['.']
      · simpa [hx1] using hacc
      · by_cases hx2 : x = ['.', '.']
        · simp only [hx1, hx2, if_true, if_false]
          intro s hs
          exact hacc s ((List.dropLast_sublist _).subset hs)
        · simp only [hx1, hx2, if_false]
          intro s hs
          rcases List.mem_append.mp hs with h | h
          · exact hacc s h
          · rw [List.mem_singleton.mp h]
            exact hp x (by simp)
    · intro s hs
      exact hp s (by simp [hs])

/-- Every segment of a resolved path comes from the input. -/
theorem resolveSegs_mem (p : List (List Char)) (Q : List Char → Prop)
    (hp : ∀ s ∈ p, Q s) : ∀ s ∈ Workbench.resolveSegs p, Q s := by
  unfold Workbench.resolveSegs
  exact resolveFold_mem Q p [] (by intro s hs; cases hs) hp

/-- Resolution output carries no dot segments. -/
theorem resolveSegs_noDots (p : List (List Char)) :
    ∀ s ∈ Workbench.resolveSegs p, s ≠ ['.'] ∧ s ≠ ['.', '.'] := by
  unfold Workbench.resolveSegs
  have : ∀ (q : List (List Char)) (acc : List (List Char)),
      (∀ s ∈ acc, s ≠ ['.'] ∧ s ≠ ['.', '.']) →
      ∀ s ∈ q.foldl (fun acc seg =>
          if seg = ['.'] then acc
          else if seg = ['.', '.'] then acc.dropLast
          else acc ++ [seg]) acc, s ≠ ['.'] ∧ s ≠ ['.', '.'] := by
    intro q
    induction q with
    | nil => intro acc hacc s hs; exact hacc s hs
    | cons x rest ih =>
      intro acc hacc
      rw [List.foldl_cons]
      apply ih
      by_cases hx1 : x = ['.']
      · simpa [hx1] using hacc
      · by_cases hx2 : x = ['.', '.']
        · simp only [hx1, hx2, if_true, if_false]
          intro s hs
          exact hacc s ((List.dropLast_sublist _).subset hs)
        · simp only [hx1, hx2, if_false]
          intro s hs
          rcases List.mem_append.mp hs with h | h
          · exact hacc s h
          · rw [List.mem_singleton.mp h]
            exact ⟨hx1, hx2⟩
  exact this p [] (by intro s hs; cases hs)

/-- Resolution fixes dot-free paths. -/
theorem resolveSegs_fixed (p : List (List Char))
    (h : ∀ s ∈ p, s ≠ ['.'] ∧ s ≠ ['.', '.']) : Workbench.resolveSegs p = p := by
  unfold Workbench.resolveSegs
  have : ∀ (q : List (List Char)) (acc : List (List Char)),
      (∀ s ∈ q, s ≠ ['.'] ∧ s ≠ ['.', '.']) →
      q.foldl (fun acc seg =>
        if seg = ['.'] then acc
        else if seg = ['.', '.'] then acc.dropLast
        else acc ++ [seg]) acc = acc ++ q := by
    intro q
    induction q with
    | nil => intro acc _; simp
    | cons x rest ih =>
      intro acc hq
      rw [List.foldl_cons]
      have hx := hq x (by simp)
      rw [if_neg hx.1, if_neg hx.2]
      rw [ih (acc ++ [x]) (fun s hs => hq s (by simp [hs]))]
      simp
  have := this p [] h
  simpa using this

/-- Resolution is idempotent. -/
theorem resolveSegs_idem (p : List (List Char)) :
    Workbench.resolveSegs (Workbench.resolveSegs p) = Workbench.resolveSegs p :=
  resolveSegs_fixed _ (resolveSegs_noDots p)

/-- A join produces only clean segments when the base is clean. -/
theorem joinPath_clean (base : List (List Char)) (s : List Char)
    (hb : ∀ x ∈ base, Workbench.isCleanSeg x = true) :
    ∀ x ∈ Workbench.joinPath base s, Workbench.isCleanSeg x = true := by
  intro x hx
  unfold Workbench.joinPath at hx
  by_cases hh : s.head? = some '/'
  · rw [if_pos hh] at hx
    exact splitSegs_clean s x hx
  · rw [if_neg hh] at hx
    rcases List.mem_append.mp hx with h | h
    · exact hb x h
    · exact splitSegs_clean s x h

/-- Prepending a slash-free chunk to a split. -/
theorem splitOnSlash_append (s l : List Char) (h : '/' ∉ s) :
    Workbench.splitOnSlash (s ++ l)
      = (s ++ ((Workbench.splitOnSlash l).headD []))
          :: ((Workbench.splitOnSlash l).tail) := by
  induction s with
  | nil =>
    cases he : Workbench.splitOnSlash l with
    | nil => exact absurd he (splitOnSlash_ne_nil l)
    | cons hd tl => simp [he]
  | cons c s' ih =>
    have hc : c ≠ '/' := fun he => h (by simp [he])
    have h' : '/' ∉ s' := fun hm => h (by simp [hm])
    have hstep := ih h'
    show Workbench.splitOnSlash (c :: (s' ++ l)) = _
    have hred : Workbench.splitOnSlash (c :: (s' ++ l))
        = (c :: (s' ++ ((Workbench.splitOnSlash l).headD [])))
            :: ((Workbench.splitOnSlash l).tail) := by
      have hdef : Workbench.splitOnSlash (c :: (s' ++ l))
          = match Workbench.splitOnSlash (s' ++ l) with
            | [] => [[]]
            | seg :: segs => if c == '/' then [] :: seg :: segs else (c :: seg) :: segs := rfl
      rw [hdef, hstep]
      simp [hc]
    rw [hred]
    simp

/-- A rendered nonempty path starts with a slash. -/
theorem renderPath_head (p : List (List Char)) (h : p ≠ []) :
    ∃ l, Workbench.renderPath p = '/' :: l := by
  cases p with
  | nil => contradiction
  | cons s rest =>
    cases rest with
    | nil => exact ⟨s, rfl⟩
    | cons r rest2 => exact ⟨s ++ Workbench.renderPath (r :: rest2), rfl⟩

/-- Parsing a rendered clean path recovers its segments. -/
theorem splitSegs_render :
    ∀ p : List (List Char), (∀ s ∈ p, Workbench.isCleanSeg s = true) →
      Workbench.splitSegs (Workbench.renderPath p) = p := by
  intro p
  induction p with
  | nil => intro _; rfl
  | cons s rest ih =>
    intro h
    have hscl := h s (by simp)
    have hsl : '/' ∉ s := fun hm => cleanSeg_no_slash s hscl '/' hm rfl
    have hsne : s ≠ [] := by
      unfold Workbench.isCleanSeg at hscl
      rw [Bool.and_eq_true] at hscl
      simpa using hscl.1
    cases rest with
    | nil =>
      show Workbench.splitSegs ('/' :: s) = [s]
      unfold Workbench.splitSegs
      have h1 : Workbench.splitOnSlash ('/' :: s) = [] :: Workbench.splitOnSlash s := by
        cases hs : Workbench.splitOnSlash s with
        | nil => exact absurd hs (splitOnSlash_ne_nil s)
        | cons a as =>
          unfold Workbench.splitOnSlash
          rw [hs]
          simp
      rw [h1, splitOnSlash_noslash_eq s hsl]
      simp [hsne]
    | cons r rest2 =>
      obtain ⟨l, hl⟩ := renderPath_head (r :: rest2) (by simp)
      have hihm : (Workbench.splitOnSlash l).filter (fun seg => !seg.isEmpty)
          = r :: rest2 := by
        have hih := ih (fun x hx => h x (by simp [hx]))
        unfold Workbench.splitSegs at hih
        rw [hl] at hih
        have h3 : Workbench.splitOnSlash ('/' :: l) = [] :: Workbench.splitOnSlash l := by
          cases hs : Workbench.splitOnSlash l with
          | nil => exact absurd hs (splitOnSlash_ne_nil l)
          | cons a as =>
            unfold Workbench.splitOnSlash
            rw [hs]
            simp
        rw [h3] at hih
        simpa using hih
      show Workbench.splitSegs (('/' :: s) ++ Workbench.renderPath (r :: rest2))
          = s :: r :: rest2
      unfold Workbench.splitSegs
      have h1 : ('/' :: s) ++ Workbench.renderPath (r :: rest2)
          = '/' :: (s ++ Workbench.renderPath (r :: rest2)) := by simp
      rw [h1]
      have h2 : Workbench.splitOnSlash ('/' :: (s ++ Workbench.renderPath (r :: rest2)))
          = [] :: Workbench.splitOnSlash (s ++ Workbench.renderPath (r :: rest2)) := by
        cases hs : Workbench.splitOnSlash (s ++ Workbench.renderPath (r :: rest2)) with
        | nil => exact absurd hs (splitOnSlash_ne_nil _)
        | cons a as =>
          unfold Workbench.splitOnSlash
          rw [hs]
          simp
      rw [h2, splitOnSlash_append s (Workbench.renderPath (r :: rest2)) hsl]
      have h4 : Workbench.splitOnSlash (Workbench.renderPath (r :: rest2))
          = [] :: Workbench.splitOnSlash l := by
        rw [hl]
        cases hs : Workbench.splitOnSlash l with
        | nil => exact absurd hs (splitOnSlash_ne_nil l)
        | cons a as =>
          unfold Workbench.splitOnSlash
          rw [hs]
          simp
      rw [h4]
      simp only [List.headD_cons, List.tail_cons, List.append_nil, List.filter_cons]
      simp [hsne, hihm]

/-- A hex digest is nonempty, slash-free and not a dot segment. -/
theorem hexy_facts (s : List Char) (h : Workbench.hexy s = true) :
    s ≠ [] ∧ '/' ∉ s ∧ s ≠ ['.'] ∧ s ≠ ['.', '.'] := by
  unfold Workbench.hexy at h
  rw [Bool.and_eq_true] at h
  have hne : s ≠ [] := by simpa using h.1
  have hmem : ∀ c ∈ s, c ∈ "0123456789abcdef".toList := by
    intro c hc
    have := (List.all_eq_true.mp h.2) c hc
    simpa using this
  refine ⟨hne, ?_, ?_, ?_⟩
  · intro hm
    exact absurd (hmem '/' hm) (by decide)
  · intro he
    have : '.' ∈ s := by rw [he]; simp
    exact absurd (hmem '.' this) (by decide)
  · intro he
    have : '.' ∈ s := by rw [he]; simp
    exact absurd (hmem '.' this) (by decide)

/-- The two-character prefix of a hex digest is again hex-shaped. -/
theorem hexy_take (s : List Char) (h : Workbench.hexy s = true) :
    Workbench.hexy (s.take 2) = true := by
  unfold Workbench.hexy at h ⊢
  rw [Bool.and_eq_true] at h ⊢
  constructor
  · cases s with
    | nil => simpa using h.1
    | cons c rest => simp [List.take]
  · rw [List.all_eq_true] at h ⊢
    intro c hc
    exact h.2 c (List.take_subset 2 s hc)

/-- A hex digest is a clean path segment. -/
theorem hexy_clean (s : List Char) (h : Workbench.hexy s = true) :
    Workbench.isCleanSeg s = true := by
  obtain ⟨hne, hns, _, _⟩ := hexy_facts s h
  unfold Workbench.isCleanSeg
  rw [Bool.and_eq_true]
  refine ⟨by simpa using hne, ?_⟩
  rw [Bool.not_eq_true']
  simp only [List.contains_eq_any_beq, List.any_eq_false]
  intro c hc
  simp only [beq_iff_eq]
  intro he
  exact hns (he ▸ hc)

/-- C7: path safety of the artifact store.  For a clean, non-root base:
any supplied sha whose canonical path resolves outside the base makes
`exists` and `delete` fail with a path-traversal error; any supplied
stored_path string that resolves outside the base makes `get` fail the
same way; a successful `delete` changes the filesystem only at paths
under the base; and for every sha string the canonical path either
resolves under the base or `exists` raises. -/
theorem c7_path_safety (base cwd : List (List Char)) (fs : Workbench.FS)
    (sha sp : List Char)
    (hb : ∀ s ∈ base, Workbench.isCleanSeg s = true)
    (hcwd : ∀ s ∈ cwd, Workbench.isCleanSeg s = true)
    (hroot : base ≠ []) :
    (¬ Workbench.underBase base (Workbench.resolveSegs (Workbench.artifactPathRaw base sha)) →
        Workbench.existsOp base fs sha = Except.error Workbench.ArtifactErr.pathTraversal
        ∧ Workbench.deleteOp base fs sha = Except.error Workbench.ArtifactErr.pathTraversal)
    ∧ (¬ Workbench.underBase base (Workbench.resolveStr cwd sp) →
        Workbench.getOp base fs cwd sp = Except.error Workbench.ArtifactErr.pathTraversal)
    ∧ (∀ (b : Bool) (fs' : Workbench.FS),
        Workbench.deleteOp base fs sha = Except.ok (b, fs') →
        ∀ q, fs' q ≠ fs q → Workbench.underBase base q)
    ∧ (Workbench.underBase base (Workbench.resolveSegs (Workbench.artifactPathRaw base sha))
        ∨ Workbench.existsOp base fs sha = Except.error Workbench.ArtifactErr.pathTraversal) := by
  have hcleanA : ∀ x ∈ Workbench.artifactPathRaw base sha, Workbench.isCleanSeg x = true :=
    joinPath_clean _ sha (joinPath_clean base (sha.take 2) hb)
  have hcleanRA : ∀ x ∈ Workbench.resolveSegs (Workbench.artifactPathRaw base sha),
      Workbench.isCleanSeg x = true :=
    resolveSegs_mem _ _ hcleanA
  have hvalA : Workbench.validate_under_base base (Workbench.artifactPathRaw base sha) = true
      ↔ Workbench.underBase base (Workbench.resolveSegs (Workbench.artifactPathRaw base sha)) := by
    unfold Workbench.validate_under_base
    exact validateOk_iff base _ hb hcleanRA hroot
  have hcleanP : ∀ x ∈ Workbench.resolveStr cwd sp, Workbench.isCleanSeg x = true := by
    unfold Workbench.resolveStr
    by_cases hh : sp.head? = some '/'
    · rw [if_pos hh]
      exact resolveSegs_mem _ _ (fun x hx => splitSegs_clean sp x hx)
    · rw [if_neg hh]
      apply resolveSegs_mem
      intro x hx
      rcases List.mem_append.mp hx with h | h
      · exact hcwd x h
      · exact splitSegs_clean sp x h
  have hfixP : Workbench.resolveSegs (Workbench.resolveStr cwd sp)
      = Workbench.resolveStr cwd sp := by
    unfold Workbench.resolveStr
    by_cases hh : sp.head? = some '/'
    · rw [if_pos hh]
      exact resolveSegs_idem _
    · rw [if_neg hh]
      exact resolveSegs_idem _
  have hvalP : Workbench.validateOk base (Workbench.resolveSegs (Workbench.resolveStr cwd sp)) = true
      ↔ Workbench.underBase base (Workbench.resolveStr cwd sp) := by
    rw [hfixP]
    exact validateOk_iff base _ hb hcleanP hroot
  refine ⟨?_, ?_, ?_, ?_⟩
  · intro hnot
    have hval : Workbench.validate_under_base base (Workbench.artifactPathRaw base sha) = false := by
      rw [Bool.eq_false_iff]
      intro hcontra
      exact hnot (hvalA.mp hcontra)
    constructor
    · unfold Workbench.existsOp
      dsimp only
      rw [hval]
      rfl
    · unfold Workbench.deleteOp
      dsimp only
      rw [hval]
      rfl
  · intro hnot
    have hval : Workbench.validateOk base
        (Workbench.resolveSegs (Workbench.resolveStr cwd sp)) = false := by
      rw [Bool.eq_false_iff]
      intro hcontra
      exact hnot (hvalP.mp hcontra)
    unfold Workbench.getOp
    dsimp only
    rw [hval]
    rfl
  · intro b fs' hok q hne
    by_cases hval : Workbench.validate_under_base base (Workbench.artifactPathRaw base sha) = true
    · unfold Workbench.deleteOp at hok
      dsimp only at hok
      rw [hval] at hok
      simp only [if_true] at hok
      cases hlook : fs (Workbench.resolveSegs (Workbench.artifactPathRaw base sha)) with
      | none =>
        rw [hlook] at hok
        simp only [Except.ok.injEq, Prod.mk.injEq] at hok
        exact absurd (by rw [hok.2]) hne
      | some c =>
        rw [hlook] at hok
        simp only [Except.ok.injEq, Prod.mk.injEq] at hok
        by_cases hq : q = Workbench.resolveSegs (Workbench.artifactPathRaw base sha)
        · rw [hq]
          exact hvalA.mp hval
        · exfalso
          apply hne
          rw [← hok.2]
          simp [hq]
    · unfold Workbench.deleteOp at hok
      dsimp only at hok
      rw [Bool.not_eq_true] at hval
      rw [hval] at hok
      simp at hok
  · by_cases hu : Workbench.underBase base
        (Workbench.resolveSegs (Workbench.artifactPathRaw base sha))
    · exact Or.inl hu
    · right
      have hval : Workbench.validate_under_base base (Workbench.artifactPathRaw base sha) = false := by
        rw [Bool.eq_false_iff]
        intro hcontra
        exact hu (hvalA.mp hcontra)
      unfold Workbench.existsOp
      dsimp only
      rw [hval]
      rfl

/-- Witness for `c7_path_safety` at a concrete base, cwd and filesystem. -/
theorem c7_path_safety_witness :
    (¬ Workbench.underBase [['b']]
        (Workbench.resolveSegs (Workbench.artifactPathRaw [['b']] ['x'])) →
      Workbench.existsOp [['b']] (fun _ => none) ['x']
          = Except.error Workbench.ArtifactErr.pathTraversal
      ∧ Workbench.deleteOp [['b']] (fun _ => none) ['x']
          = Except.error Workbench.ArtifactErr.pathTraversal)
    ∧ (¬ Workbench.underBase [['b']] (Workbench.resolveStr [] ['s']) →
      Workbench.getOp [['b']] (fun _ => none) [] ['s']
          = Except.error Workbench.ArtifactErr.pathTraversal)
    ∧ (∀ (b : Bool) (fs' : Workbench.FS),
        Workbench.deleteOp [['b']] (fun _ => none) ['x'] = Except.ok (b, fs') →
        ∀ q, fs' q ≠ (fun _ => (none : Option (List Nat))) q →
          Workbench.underBase [['b']] q)
    ∧ (Workbench.underBase [['b']]
        (Workbench.resolveSegs (Workbench.artifactPathRaw [['b']] ['x']))
        ∨ Workbench.existsOp [['b']] (fun _ => none) ['x']
            = Except.error Workbench.ArtifactErr.pathTraversal) :=
  c7_path_safety [['b']] [] (fun _ => none) ['x'] ['s']
    (by decide) (by intro s hs; cases hs) (by decide)

/-- C8: content-addressed store round trip.  For a clean, non-root,
resolved base, a payload whose digest is hex-shaped, and a filesystem
whose slot for that digest (if occupied) holds exactly this content:
`store` succeeds, the returned reference carries the digest and the
content length, `get` on the stored reference returns exactly the
payload bytes, and storing the same content again returns the same
reference — same `stored_path` — with the filesystem left untouched. -/
theorem c8_store_roundtrip (hash : List Nat → List Char) (base : List (List Char))
    (fs : Workbench.FS) (payload : Workbench.ArtifactPayloadM)
    (hb : ∀ s ∈ base, Workbench.isCleanSeg s = true)
    (hroot : base ≠ [])
    (hbres : Workbench.resolveSegs base = base)
    (hsha : Workbench.hexy (hash payload.content) = true)
    (hocc : ∀ c, fs (Workbench.resolveSegs
        (Workbench.artifactPathRaw base (hash payload.content))) = some c →
        c = payload.content) :
    ∃ (ref : Workbench.ArtifactRefM) (fs' : Workbench.FS),
      Workbench.storeOp hash base fs payload = Except.ok (ref, fs')
      ∧ ref.sha256 = hash payload.content
      ∧ ref.size_bytes = payload.content.length
      ∧ Workbench.getOp base fs' [] ref.stored_path = Except.ok payload.content
      ∧ Workbench.storeOp hash base fs' payload = Except.ok (ref, fs') := by
  obtain ⟨hne, hns, hd1, hd2⟩ := hexy_facts _ hsha
  obtain ⟨hne2, hns2, hd12, hd22⟩ := hexy_facts _ (hexy_take _ hsha)
  have hbase_nodots : ∀ s ∈ base, s ≠ ['.'] ∧ s ≠ ['.', '.'] := by
    intro s hs
    rw [← hbres] at hs
    exact resolveSegs_noDots base s hs
  have hh2 : ¬ ((hash payload.content).take 2).head? = some '/' := by
    intro h
    cases hx : (hash payload.content).take 2 with
    | nil => rw [hx] at h; simp at h
    | cons c r =>
      rw [hx] at h
      simp only [List.head?_cons, Option.some_inj] at h
      exact hns2 (by rw [hx, h]; simp)
  have hh1 : ¬ (hash payload.content).head? = some '/' := by
    intro h
    cases hx : hash payload.content with
    | nil => rw [hx] at h; simp at h
    | cons c r =>
      rw [hx] at h
      simp only [List.head?_cons, Option.some_inj] at h
      exact hns (by rw [hx, h]; simp)
  have hjoinA : Workbench.joinPath base ((hash payload.content).take 2)
      = base ++ [(hash payload.content).take 2] := by
    unfold Workbench.joinPath
    rw [if_neg hh2, splitSegs_noslash _ hne2 hns2]
  have hjoinB : Workbench.joinPath (base ++ [(hash payload.content).take 2])
      (hash payload.content)
      = base ++ [(hash payload.content).take 2, hash payload.content] := by
    unfold Workbench.joinPath
    rw [if_neg hh1, splitSegs_noslash _ hne hns]
    simp
  have hcleanFP : ∀ s ∈ base ++ [(hash payload.content).take 2, hash payload.content],
      Workbench.isCleanSeg s = true := by
    intro s hs
    rcases List.mem_append.mp hs with h | h
    · exact hb s h
    · rcases List.mem_cons.mp h with rfl | h2
      · exact hexy_clean _ (hexy_take _ hsha)
      · rw [List.mem_singleton.mp h2]
        exact hexy_clean _ hsha
  have hressub : Workbench.resolveSegs (base ++ [(hash payload.content).take 2])
      = base ++ [(hash payload.content).take 2] := by
    apply resolveSegs_fixed
    intro s hs
    rcases List.mem_append.mp hs with h | h
    · exact hbase_nodots s h
    · rw [List.mem_singleton.mp h]
      exact ⟨hd12, hd22⟩
  have hresfp : Workbench.resolveSegs
      (base ++ [(hash payload.content).take 2, hash payload.content])
      = base ++ [(hash payload.content).take 2, hash payload.content] := by
    apply resolveSegs_fixed
    intro s hs
    rcases List.mem_append.mp hs with h | h
    · exact hbase_nodots s h
    · rcases List.mem_cons.mp h with rfl | h2
      · exact ⟨hd12, hd22⟩
      · rw [List.mem_singleton.mp h2]
        exact ⟨hd1, hd2⟩
  have hvA : Workbench.validate_under_base base
      (base ++ [(hash payload.content).take 2]) = true := by
    unfold Workbench.validate_under_base
    rw [hressub]
    refine (validateOk_iff base _ hb ?_ hroot).mpr ⟨[(hash payload.content).take 2], rfl⟩
    intro s hs
    rcases List.mem_append.mp hs with h | h
    · exact hb s h
    · rw [List.mem_singleton.mp h]
      exact hexy_clean _ (hexy_take _ hsha)
  have hvB : Workbench.validate_under_base base
      (base ++ [(hash payload.content).take 2, hash payload.content]) = true := by
    unfold Workbench.validate_under_base
    rw [hresfp]
    exact (validateOk_iff base _ hb hcleanFP hroot).mpr
      ⟨[(hash payload.content).take 2, hash payload.content], rfl⟩
  have hoccfp : ∀ c, fs (base ++ [(hash payload.content).take 2, hash payload.content])
      = some c → c = payload.content := by
    intro c hc
    apply hocc
    unfold Workbench.artifactPathRaw
    rw [hjoinA, hjoinB, hresfp]
    exact hc
  have hstore : ∀ g : Workbench.FS,
      Workbench.storeOp hash base g payload = Except.ok
        (⟨hash payload.content,
          Workbench.renderPath
            (base ++ [(hash payload.content).take 2, hash payload.content]),
          payload.original_name, payload.media_type, payload.description,
          payload.content.length⟩,
         if (g (base ++ [(hash payload.content).take 2, hash payload.content])).isSome
         then g
         else fun q =>
           if q = base ++ [(hash payload.content).take 2, hash payload.content]
           then some payload.content else g q) := by
    intro g
    unfold Workbench.storeOp
    dsimp only
    rw [hjoinA, hvA]
    simp only [if_true]
    rw [hjoinB, hvB]
    simp only [if_true]
    rw [hresfp]
  refine ⟨_, _, hstore fs, rfl, rfl, ?_, ?_⟩
  · -- get returns the content
    have hfseq : (if (fs (base ++ [(hash payload.content).take 2, hash payload.content])).isSome
        then fs
        else fun q =>
          if q = base ++ [(hash payload.content).take 2, hash payload.content]
          then some payload.content else fs q)
        (base ++ [(hash payload.content).take 2, hash payload.content])
        = some payload.content := by
      by_cases hso : (fs (base ++ [(hash payload.content).take 2, hash payload.content])).isSome = true
      · rw [if_pos hso]
        obtain ⟨c, hc⟩ := Option.isSome_iff_exists.mp hso
        rw [hc, hoccfp c hc]
      · rw [if_neg hso]
        simp
    obtain ⟨l, hl⟩ := renderPath_head
      (base ++ [(hash payload.content).take 2, hash payload.content])
      (by simp [hroot])
    have hresolveStr : Workbench.resolveStr []
        (Workbench.renderPath (base ++ [(hash payload.content).take 2, hash payload.content]))
        = base ++ [(hash payload.content).take 2, hash payload.content] := by
      unfold Workbench.resolveStr
      rw [if_pos (by rw [hl]; rfl)]
      rw [splitSegs_render _ hcleanFP]
      exact hresfp
    unfold Workbench.getOp
    dsimp only
    rw [hresolveStr, hresfp]
    rw [(validateOk_iff base _ hb hcleanFP hroot).mpr
      ⟨[(hash payload.content).take 2, hash payload.content], rfl⟩]
    simp only [if_true]
    rw [hfseq]
  · -- dedup: second store leaves everything unchanged
    rw [hstore]
    have hfseq : (if (fs (base ++ [(hash payload.content).take 2, hash payload.content])).isSome
        then fs
        else fun q =>
          if q = base ++ [(hash payload.content).take 2, hash payload.content]
          then some payload.content else fs q)
        (base ++ [(hash payload.content).take 2, hash payload.content])
        = some payload.content := by
      by_cases hso : (fs (base ++ [(hash payload.content).take 2, hash payload.content])).isSome = true
      · rw [if_pos hso]
        obtain ⟨c, hc⟩ := Option.isSome_iff_exists.mp hso
        rw [hc, hoccfp c hc]
      · rw [if_neg hso]
        simp
    rw [hfseq]
    simp

/-- Witness for `c8_store_roundtrip`: an empty payload stored into an
empty filesystem under base `/b`, with a concrete hex digest. -/
theorem c8_store_roundtrip_witness :
    ∃ (ref : Workbench.ArtifactRefM) (fs' : Workbench.FS),
      Workbench.storeOp (fun _ => "ab".toList) [['b']] (fun _ => none)
          ⟨[], "", "", ""⟩ = Except.ok (ref, fs')
      ∧ ref.sha256 = "ab".toList
      ∧ ref.size_bytes = ([] : List Nat).length
      ∧ Workbench.getOp [['b']] fs' [] ref.stored_path = Except.ok []
      ∧ Workbench.storeOp (fun _ => "ab".toList) [['b']] fs'
          ⟨[], "", "", ""⟩ = Except.ok (ref, fs') :=
  c8_store_roundtrip (fun _ => "ab".toList) [['b']] (fun _ => none)
    ⟨[], "", "", ""⟩
    (by decide) (by decide) (by decide) (by decide)
    (by intro c hc; exact Option.noConfusion hc)
